import Mathlib

/-!
Formal model of `invokeai/backend/stable_diffusion/extensions/lora_patcher.py`
(class `LoRAPatcherExt`): key resolution (`_resolve_lora_key`), the in-place
patch loop (`_patch_model`), and the scoped patch/restore (`static_patch_model`).

Modelling conventions:
* Tensor values are exact rationals; dtype casts (`.to(dtype=...)`) change only
  the dtype tag and never the stored values, and device moves change only the
  device tag.  Shapes, dtypes and devices are explicit metadata fields.
* A torch module is represented by its submodule name tree (`ModTree`, used by
  `get_submodule` during key resolution, never mutated by the patcher) together
  with the flat parameter store keyed by hierarchical path (its state-dict
  view).  Hierarchical keys are represented by their lists of path components;
  the dot-joined string of a component list (the form the source manipulates)
  is in bijection with it because torch module and parameter names contain no
  dots.  Attribute reads such as `module.weight` on a resolved submodule become
  flat lookups at the submodule's path.
* In-place tensor mutation (`+=`, `*=`, `copy_`) is threaded as explicit state:
  the patch functions return the updated model and the updated LoRA layer
  objects.  `lora_param_weight *= ...` scales the very tensor the layer handed
  out via `get_parameters`, so the updated layers record that mutation;
  `reshape` is modelled as the view case (shared storage), which is what torch
  produces for the contiguous tensors handled here.
* Exceptions are modelled with `Except`.  An error result discards the
  partially patched state, which no property verified here observes (the
  source likewise gives the caller no handle on the bookkeeping when
  `_patch_model` raises, since the dicts are local to the failed call).
-/

namespace LoraPatcher

/-- Device tag of a tensor (`torch.device`); `cpu` is `TorchDevice.CPU_DEVICE`. -/
inductive Device where
  | cpu
  | cuda
deriving DecidableEq, Repr

/-- Numeric precision tag of a tensor (`torch.dtype`). -/
inductive Dtype where
  | float32
  | float16
deriving DecidableEq, Repr

/-- A tensor: shape, dtype and device metadata plus the flat list of values. -/
structure Tensor where
  shape : List Nat
  dtype : Dtype
  device : Device
  vals : List ℚ
deriving DecidableEq, Repr

/-- Metadata triple of a tensor (everything except its values). -/
def tmeta (t : Tensor) : List Nat × Dtype × Device := (t.shape, t.dtype, t.device)

/-- First-match association-list lookup (dict access). -/
def lookupA {κ α : Type} [DecidableEq κ] : List (κ × α) → κ → Option α
  | [], _ => none
  | x :: xs, k => if x.1 = k then some x.2 else lookupA xs k

/-- First-match association-list update; missing keys leave the list unchanged. -/
def setA {κ α : Type} [DecidableEq κ] : List (κ × α) → κ → α → List (κ × α)
  | [], _, _ => []
  | x :: xs, k, t => if x.1 = k then (k, t) :: xs else x :: setA xs k t

/-- The submodule name tree of a torch module: what `get_submodule` traverses. -/
inductive ModTree where
  | mk (subs : List (String × ModTree))

/-- Children of a tree node. -/
def ModTree.subs : ModTree → List (String × ModTree)
  | .mk s => s

/-- Lookup of a directly named submodule (`Module.get_submodule(name)`);
`none` models the `AttributeError` the source catches. -/
def ModTree.getSub (m : ModTree) (n : String) : Option ModTree :=
  lookupA m.subs n

/-- A hierarchical parameter key, as its list of path components. -/
abbrev Key := List String

/-- A torch module: submodule name tree plus flat parameter store. -/
structure Model where
  tree : ModTree
  params : List (Key × Tensor)

/-- Parameter lookup by hierarchical key (`Module.get_parameter`). -/
def Model.getParam (m : Model) (k : Key) : Option Tensor :=
  lookupA m.params k

/-- In-place write of a parameter tensor at a hierarchical key. -/
def Model.setParam (m : Model) (k : Key) (t : Tensor) : Model :=
  { m with params := setA m.params k t }

/-- Errors raised by resolution and patching (spec taxonomy: `InvalidKeyError`,
`ShapeError`, `MissingAttributeError`; `dotInKey` is the entry assertion of
`_resolve_lora_key`). -/
inductive PatchError where
  | dotInKey
  | invalidPrefix
  | unresolvedKey
  | missingWeight
  | missingParam
  | shapeError
deriving DecidableEq, Repr

/-- Python's `str.lstrip(".")`: drop every leading dot. -/
def lstripDots (s : String) : String :=
  ⟨s.data.dropWhile (fun c => c = '.')⟩

/-- Split a character list on a separator character; models Python's
`str.split(sep)` for a one-character separator (`"".split` gives `[""]`,
adjacent separators give empty pieces). -/
def charSplit (c : Char) : List Char → List (List Char)
  | [] => [[]]
  | x :: xs =>
    if x = c then [] :: charSplit c xs
    else
      match charSplit c xs with
      | [] => [[x]]
      | h :: t => (x :: h) :: t

/-- Python's `key.split("_")`. -/
def splitUnderscores (s : String) : List String :=
  (charSplit '_' s.data).map (fun l => ⟨l⟩)

/-- Character-list form of Python's `str.startswith`. -/
def hasPfx : List Char → List Char → Bool
  | [], _ => true
  | _ :: _, [] => false
  | a :: as, b :: bs => a = b && hasPfx as bs

/-- Python's `key.startswith(prefix)`. -/
def strHasPfx (s pfx : String) : Bool :=
  hasPfx pfx.data s.data

/-- Python's `key[len(prefix):]` (slicing counts code points). -/
def strDropPfxLen (s pfx : String) : String :=
  ⟨s.data.drop pfx.data.length⟩

/-- Python's `"." in key` for the one-character needle. -/
def strContainsDot (s : String) : Bool :=
  s.data.any (fun c => c = '.')

/-- The greedy resolution loop of `_resolve_lora_key`: `name` is the current
accumulated token (`submodule_name`), the remaining raw tokens are the last
argument, `mkey` mirrors the incrementally built `module_key` string and
`path` is its component list.  On success the current token opens a descent
and the next raw token starts a fresh accumulated token; on failure the next
raw token is appended to the current one with an underscore.  The final
accumulated token is resolved by one mandatory descent after the loop. -/
def resolveLoop (m : ModTree) (mkey : String) (path : Key) (name : String) :
    List String → Option (String × Key × ModTree)
  | [] =>
    match m.getSub name with
    | some s => some (lstripDots (mkey ++ "." ++ name), path ++ [name], s)
    | none => none
  | p :: ps =>
    match m.getSub name with
    | some s => resolveLoop s (mkey ++ "." ++ name) (path ++ [name]) p ps
    | none => resolveLoop m mkey path (name ++ "_" ++ p) ps

/-- `LoRAPatcherExt._resolve_lora_key`: assert the flat key has no dot, check
the prefix, strip it, split the remainder on underscores and run the greedy
loop. -/
def resolve_lora_key (model : ModTree) (loraKey : String) (pfx : String) :
    Except PatchError (String × Key × ModTree) :=
  if strContainsDot loraKey then .error .dotInKey
  else if ¬ strHasPfx loraKey pfx then .error .invalidPrefix
  else
    match splitUnderscores (strDropPfxLen loraKey pfx) with
    | [] => .error .unresolvedKey
    | t :: ts =>
      match resolveLoop model "" [] t ts with
      | some r => .ok r
      | none => .error .unresolvedKey

/-- One LoRA layer: optional alpha, optional rank, and the per-parameter delta
tensors its `get_parameters` hands to the patcher. -/
structure LoraLayer where
  alpha : Option ℚ
  rank : Option ℚ
  params : List (String × Tensor)
deriving DecidableEq, Repr

/-- A LoRA model: its flat-keyed layers, in iteration order. -/
structure LoraModel where
  layers : List (String × LoraLayer)
deriving DecidableEq, Repr

/-- Python truthiness of an optional number: `None`, `0` and `0.0` are falsy. -/
def truthy : Option ℚ → Bool
  | none => false
  | some x => decide (x ≠ 0)

/-- Line 114: `layer.alpha / layer.rank if (layer.alpha and layer.rank) else 1.0`. -/
def layerScale (l : LoraLayer) : ℚ :=
  if truthy l.alpha && truthy l.rank then l.alpha.getD 1 / l.rank.getD 1 else 1

/-- Scale a value list pointwise (`tensor *= c`). -/
def scaleVals (c : ℚ) (vs : List ℚ) : List ℚ :=
  vs.map (fun v => c * v)

/-- Pointwise addition of value lists (`tensor += other`, equal shapes). -/
def addVals (a b : List ℚ) : List ℚ :=
  List.zipWith (fun x y => x + y) a b

/-- The mutable state of one `_patch_model` call: the model being patched plus
the bookkeeping dict `modified_weights` and set `modified_cached_weights`
(both kept in insertion order). -/
structure PatchState where
  model : Model
  modifiedWeights : List (Key × Tensor)
  modifiedCached : List Key

/-- Lines 129-135: on the first touch of a parameter key, either record it in
`modified_cached_weights` (when the external cache holds it) or save a
detached CPU copy of its current value into `modified_weights`. -/
def bookKeep (cached : List (Key × Tensor)) (st : PatchState) (k : Key) (mp : Tensor) :
    PatchState :=
  if k ∈ st.modifiedCached ∨ (lookupA st.modifiedWeights k).isSome then st
  else if (lookupA cached k).isSome then
    { st with modifiedCached := st.modifiedCached ++ [k] }
  else
    { st with modifiedWeights := st.modifiedWeights ++ [(k, { mp with device := Device.cpu })] }

/-- Lines 124-142, one iteration: look up the live parameter, bookkeep the
first touch, reshape the delta when shapes differ (failing when the element
counts differ), scale the delta in place by `lora_weight * layer_scale`, and
add it (cast to the module weight's dtype) to the parameter in place.  Returns
the new state and the layer's delta tensor as the in-place ops left it. -/
def patchParam (cached : List (Key × Tensor)) (lw ls : ℚ) (dt : Dtype) (modPath : Key)
    (st : PatchState) (pname : String) (w : Tensor) :
    Except PatchError (PatchState × Tensor) :=
  let paramKey : Key := modPath ++ [pname]
  match st.model.getParam paramKey with
  | none => .error .missingParam
  | some moduleParam =>
    let st₁ := bookKeep cached st paramKey moduleParam
    if moduleParam.shape ≠ w.shape ∧ w.shape.prod ≠ moduleParam.shape.prod then
      .error .shapeError
    else
      let scaled : List ℚ := scaleVals (lw * ls) w.vals
      let wOut : Tensor := { w with vals := scaled }
      let newParam : Tensor := { moduleParam with vals := addVals moduleParam.vals scaled }
      .ok ({ st₁ with model := st₁.model.setParam paramKey newParam }, wOut)

/-- The loop over `layer.get_parameters(module).items()`. -/
def patchParams (cached : List (Key × Tensor)) (lw ls : ℚ) (dt : Dtype) (modPath : Key)
    (st : PatchState) :
    List (String × Tensor) → Except PatchError (PatchState × List (String × Tensor))
  | [] => .ok (st, [])
  | (pname, w) :: rest =>
    match patchParam cached lw ls dt modPath st pname w with
    | .error e => .error e
    | .ok (st₁, w') =>
      match patchParams cached lw ls dt modPath st₁ rest with
      | .error e => .error e
      | .ok (st₂, ws) => .ok (st₂, (pname, w') :: ws)

/-- Lines 119-120: move every layer tensor to the module weight's device, then
cast to float32 (metadata only in this model). -/
def stageLayerParams (device : Device) (ps : List (String × Tensor)) :
    List (String × Tensor) :=
  (ps.map (fun x => (x.1, { x.2 with device := device }))).map
    (fun x => (x.1, { x.2 with dtype := Dtype.float32 }))

/-- Line 144: move every layer tensor back to the CPU device. -/
def unstageLayerParams (ps : List (String × Tensor)) : List (String × Tensor) :=
  ps.map (fun x => (x.1, { x.2 with device := Device.cpu }))

/-- Lines 95-144, one layer: skip keys not matching the prefix, resolve the
key, read device and dtype from the resolved module's `weight`, compute the
layer scale, stage the layer, patch each contributed parameter, and move the
layer back to CPU.  Returns the updated state and the layer as the in-place
ops left it. -/
def patchLayer (cached : List (Key × Tensor)) (pfx : String) (lw : ℚ)
    (st : PatchState) (lkey : String) (layer : LoraLayer) :
    Except PatchError (PatchState × LoraLayer) :=
  if ¬ strHasPfx lkey pfx then .ok (st, layer)
  else
    match resolve_lora_key st.model.tree lkey pfx with
    | .error e => .error e
    | .ok (_mkey, modPath, _module) =>
      match st.model.getParam (modPath ++ ["weight"]) with
      | none => .error .missingWeight
      | some wparam =>
        let ls := layerScale layer
        let staged := stageLayerParams wparam.device layer.params
        match patchParams cached lw ls wparam.dtype modPath st staged with
        | .error e => .error e
        | .ok (st', outPs) => .ok (st', { layer with params := unstageLayerParams outPs })

/-- The loop over `lora.layers.items()`. -/
def patchLayers (cached : List (Key × Tensor)) (pfx : String) (lw : ℚ)
    (st : PatchState) :
    List (String × LoraLayer) → Except PatchError (PatchState × List (String × LoraLayer))
  | [] => .ok (st, [])
  | (lk, ly) :: rest =>
    match patchLayer cached pfx lw st lk ly with
    | .error e => .error e
    | .ok (st₁, ly') =>
      match patchLayers cached pfx lw st₁ rest with
      | .error e => .error e
      | .ok (st₂, lys) => .ok (st₂, (lk, ly') :: lys)

/-- The loop over the `(lora, lora_weight)` pairs, in the given order. -/
def patchLoras (cached : List (Key × Tensor)) (pfx : String) (st : PatchState) :
    List (LoraModel × ℚ) → Except PatchError (PatchState × List (LoraModel × ℚ))
  | [] => .ok (st, [])
  | (lm, lw) :: rest =>
    match patchLayers cached pfx lw st lm.layers with
    | .error e => .error e
    | .ok (st₁, outLayers) =>
      match patchLoras cached pfx st₁ rest with
      | .error e => .error e
      | .ok (st₂, outLoras) => .ok (st₂, (LoraModel.mk outLayers, lw) :: outLoras)

/-- `LoRAPatcherExt._patch_model`: default the cache to empty, start with empty
bookkeeping, and apply every LoRA in order.  Returns the final state (model
plus the returned `(modified_cached_weights, modified_weights)` pair) and the
LoRA models as the in-place ops left them. -/
def patch_model (model : Model) (pfx : String) (loras : List (LoraModel × ℚ))
    (cachedOpt : Option (List (Key × Tensor))) :
    Except PatchError (PatchState × List (LoraModel × ℚ)) :=
  patchLoras (cachedOpt.getD []) pfx ⟨model, [], []⟩ loras

/-- `dst.copy_(src)`: overwrite the values, keep `dst`'s metadata. -/
def copyInto (dst src : Tensor) : Tensor :=
  { dst with vals := src.vals }

/-- One restore write: `model.get_parameter(k).copy_(src)`.  A missing key
(unreachable in the flows verified below) is a no-op. -/
def restoreOne (m : Model) (k : Key) (src : Tensor) : Model :=
  match m.getParam k with
  | some p => m.setParam k (copyInto p src)
  | none => m

/-- Lines 67-68, one step: `model.get_parameter(k).copy_(cached_weights[k])`.
A key missing from the cache (unreachable: every member of
`modified_cached_weights` was found in the cache) is a no-op. -/
def restoreCachedStep (cached : List (Key × Tensor)) (acc : Model) (k : Key) : Model :=
  match lookupA cached k with
  | some src => restoreOne acc k src
  | none => acc

/-- Lines 69-70, one step: `model.get_parameter(k).copy_(weight)`. -/
def restoreSavedStep (acc : Model) (kv : Key × Tensor) : Model :=
  restoreOne acc kv.1 kv.2

/-- Lines 66-70, the `finally` block: restore every touched-cached key from the
external cache, then every saved key from `modified_weights`. -/
def restoreModel (m : Model) (mc : List Key) (mw : List (Key × Tensor))
    (cached : List (Key × Tensor)) : Model :=
  mw.foldl restoreSavedStep (mc.foldl (restoreCachedStep cached) m)

/-- How the scope body of the context manager exits: normally, or by raising. -/
inductive ExitPath (ε : Type) where
  | normal
  | raised (e : ε)
deriving DecidableEq, Repr

/-- `LoRAPatcherExt.static_patch_model`: patch before entering the `try`, and
run the restore in the `finally` block, so the restore happens on every exit
path of the scope body; the exit (normal or raised) then propagates. -/
def static_patch_model {ε : Type} (model : Model) (pfx : String)
    (loras : List (LoraModel × ℚ)) (cachedOpt : Option (List (Key × Tensor)))
    (exit : ExitPath ε) : Except PatchError (Model × ExitPath ε) :=
  match patch_model model pfx loras cachedOpt with
  | .error e => .error e
  | .ok (st, _) =>
    .ok (restoreModel st.model st.modifiedCached st.modifiedWeights (cachedOpt.getD []), exit)

/-- Contributions of one layer's parameter list to the key `k`, in processing
order: each entry is the delta's values scaled by `lora_weight * layer_scale`. -/
def paramsContrib (c : ℚ) (modPath : Key) :
    List (String × Tensor) → Key → List (List ℚ)
  | [], _ => []
  | (pn, w) :: rest, k =>
    (if modPath ++ [pn] = k then [scaleVals c w.vals] else []) ++
      paramsContrib c modPath rest k

/-- Contributions of one layer to the key `k` (empty off the prefix or when the
key does not resolve). -/
def layerContrib (tree : ModTree) (pfx : String) (lw : ℚ) (lkey : String)
    (layer : LoraLayer) (k : Key) : List (List ℚ) :=
  if ¬ strHasPfx lkey pfx then []
  else
    match resolve_lora_key tree lkey pfx with
    | .error _ => []
    | .ok (_, modPath, _) => paramsContrib (lw * layerScale layer) modPath layer.params k

/-- Contributions of a layer list to the key `k`, in order. -/
def layersContrib (tree : ModTree) (pfx : String) (lw : ℚ) :
    List (String × LoraLayer) → Key → List (List ℚ)
  | [], _ => []
  | (lk, ly) :: rest, k =>
    layerContrib tree pfx lw lk ly k ++ layersContrib tree pfx lw rest k

/-- Contributions of the whole LoRA spec to the key `k`, in application order:
the scaled deltas `weight_i * layer_scale_i * delta_i` of the claim. -/
def lorasContrib (tree : ModTree) (pfx : String) :
    List (LoraModel × ℚ) → Key → List (List ℚ)
  | [], _ => []
  | (lm, lw) :: rest, k =>
    layersContrib tree pfx lw lm.layers k ++ lorasContrib tree pfx rest k

/-! ### The spec's description of key resolution -/

/-- Spec §4.1: dot-join a canonical path. -/
def dotJoin : List String → String
  | [] => ""
  | [a] => a
  | a :: b :: rest => a ++ "." ++ dotJoin (b :: rest)

/-- The string the incremental `module_key` accumulation of the source
produces: one `"." ++ component` block per path component. -/
def dotTail : List String → String
  | [] => ""
  | a :: rest => "." ++ a ++ dotTail rest

/-- Spec §4.1, the greedy loop in the spec's own terms: resolve the current
accumulated token as a direct sub-component; on success descend and open a new
accumulated token, on failure extend the accumulated token with an underscore
and the next raw token; the final accumulated token must resolve by one
mandatory descent after the loop. -/
def specResolveLoop (m : ModTree) (canon : List String) (acc : String) :
    List String → Option (List String × ModTree)
  | [] =>
    match m.getSub acc with
    | some s => some (canon ++ [acc], s)
    | none => none
  | t :: ts =>
    match m.getSub acc with
    | some s => specResolveLoop s (canon ++ [acc]) t ts
    | none => specResolveLoop m canon (acc ++ "_" ++ t) ts

/-- Modelled from the spec (§4.1 KeyResolver): strip the prefix, split the
remainder on underscores into ordered tokens, run the greedy
leftmost-shortest-match descent from the model root, and return the canonical
key as the dot-joined path with a leading dot stripped, together with the
resolved sub-component.  Keys not starting with the prefix fail. -/
def specResolve (model : ModTree) (key pfx : String) : Option (String × Key × ModTree) :=
  if strHasPfx key pfx then
    match splitUnderscores (strDropPfxLen key pfx) with
    | [] => none
    | t :: ts =>
      (specResolveLoop model [] t ts).map (fun r => (lstripDots (dotJoin r.1), r.1, r.2))
  else none

/-! ### Concrete data used by the witnesses and counterexamples -/

/-- Spec §8 scenario: a [2]-shaped half-precision weight, all zeros, on the
accelerator device, living at `foo.bar_baz.weight`. -/
def T0 : Tensor := Tensor.mk [2] Dtype.float16 Device.cuda [0, 0]

/-- Spec §8 scenario tree: module `foo` containing `bar_baz`. -/
def scTree : ModTree := ModTree.mk [("foo", ModTree.mk [("bar_baz", ModTree.mk [])])]

/-- Spec §8 scenario model. -/
def scModel : Model := Model.mk scTree [(["foo", "bar_baz", "weight"], T0)]

/-- Spec §8 scenario layer: rank 4, alpha 4 (scale 1), all-ones delta. -/
def scLayer : LoraLayer :=
  LoraLayer.mk (some 4) (some 4) [("weight", Tensor.mk [2] Dtype.float32 Device.cpu [1, 1])]

/-- Spec §8 scenario LoRA with flat key `lora_unet_foo_bar_baz`. -/
def scLora : LoraModel := LoraModel.mk [("lora_unet_foo_bar_baz", scLayer)]

/-- A one-LoRA run of the spec §8 scenario at weight 1/2, without a cache. -/
def c1Run : Except PatchError (PatchState × List (LoraModel × ℚ)) :=
  patch_model scModel "lora_unet_" [(scLora, 1/2)] none

/-- Final state of `c1Run`. -/
def c1St : PatchState :=
  match c1Run with
  | .ok pr => pr.1
  | .error _ => PatchState.mk scModel [] []

/-- A run applying the same LoRA twice (weights 1/2 then 1). -/
def c2Loras : List (LoraModel × ℚ) := [(scLora, 1/2), (scLora, 1)]

/-- The two-LoRA run on the spec §8 scenario. -/
def c2Run : Except PatchError (PatchState × List (LoraModel × ℚ)) :=
  patch_model scModel "lora_unet_" c2Loras none

/-- Final state of `c2Run`. -/
def c2St : PatchState :=
  match c2Run with
  | .ok pr => pr.1
  | .error _ => PatchState.mk scModel [] []

/-- Returned LoRA models of `c2Run`. -/
def c2Outs : List (LoraModel × ℚ) :=
  match c2Run with
  | .ok pr => pr.2
  | .error _ => []

/-- An external cache agreeing with nobody: it maps the scenario key to [7, 7]. -/
def c4Cache : List (Key × Tensor) :=
  [(["foo", "bar_baz", "weight"], Tensor.mk [2] Dtype.float16 Device.cpu [7, 7])]

/-- The one-LoRA run with the external cache supplied. -/
def c4Run : Except PatchError (PatchState × List (LoraModel × ℚ)) :=
  patch_model scModel "lora_unet_" [(scLora, 1)] (some c4Cache)

/-- Final state of `c4Run`. -/
def c4St : PatchState :=
  match c4Run with
  | .ok pr => pr.1
  | .error _ => PatchState.mk scModel [] []

/-- Returned LoRA models of `c4Run`. -/
def c4Outs : List (LoraModel × ℚ) :=
  match c4Run with
  | .ok pr => pr.2
  | .error _ => []

/-- A one-parameter model (`foo.weight`, value 0) for the counterexamples. -/
def cxModel : Model :=
  Model.mk (ModTree.mk [("foo", ModTree.mk [])])
    [(["foo", "weight"], Tensor.mk [1] Dtype.float32 Device.cpu [0])]

/-- A rank-free, alpha-free layer contributing the delta [1] to `weight`. -/
def cxLayer : LoraLayer :=
  LoraLayer.mk none none [("weight", Tensor.mk [1] Dtype.float32 Device.cpu [1])]

/-- The LoRA carrying `cxLayer` under the flat key `lora_unet_foo`. -/
def cxLora : LoraModel := LoraModel.mk [("lora_unet_foo", cxLayer)]

/-- An external cache that disagrees with the live model: it claims the
original value of `foo.weight` is [99] while the model holds [0]. -/
def cxCache : List (Key × Tensor) :=
  [(["foo", "weight"], Tensor.mk [1] Dtype.float32 Device.cpu [99])]

/-- The run of the counterexample LoRA at weight 2 (scale 1), no cache. -/
def c8Run : Except PatchError (PatchState × List (LoraModel × ℚ)) :=
  patch_model cxModel "lora_unet_" [(cxLora, 2)] none

/-- The values of the single delta tensor of the single layer of the single
LoRA returned by `c8Run` — i.e. the tensor `get_parameters` handed to the
patcher, as the patcher left it. -/
def c8OutDelta : Option (List ℚ) :=
  match c8Run with
  | .ok (_, [(lm, _)]) =>
    match lm.layers with
    | [(_, ly)] =>
      match ly.params with
      | [(_, t)] => some t.vals
      | _ => none
    | _ => none
  | _ => none

/-- Initial patch state over the counterexample model. -/
def c8St0 : PatchState := PatchState.mk cxModel [] []

/-- One `patchLayer` call on the counterexample layer at weight 2. -/
def c8LRun : Except PatchError (PatchState × LoraLayer) :=
  patchLayer [] "lora_unet_" 2 c8St0 "lora_unet_foo" cxLayer

/-- The layer object as `c8LRun` left it. -/
def c8LLy : LoraLayer :=
  match c8LRun with
  | .ok pr => pr.2
  | .error _ => cxLayer

/-- Patch state of `c8LRun`. -/
def c8LSt : PatchState :=
  match c8LRun with
  | .ok pr => pr.1
  | .error _ => c8St0

/-- A model whose single parameter `m.weight` has shape [2, 4] (8 elements). -/
def c7Model : Model :=
  Model.mk (ModTree.mk [("m", ModTree.mk [])])
    [(["m", "weight"], Tensor.mk [2, 4] Dtype.float32 Device.cpu [0, 0, 0, 0, 0, 0, 0, 0])]

/-- Initial patch state over `c7Model`. -/
def c7St : PatchState := PatchState.mk c7Model [] []

/-- The live tensor at `m.weight` in `c7Model`. -/
def c7mp : Tensor := Tensor.mk [2, 4] Dtype.float32 Device.cpu [0, 0, 0, 0, 0, 0, 0, 0]

/-- A delta with 8 elements but shape [8] — reshapeable onto [2, 4]. -/
def c7w8 : Tensor := Tensor.mk [8] Dtype.float32 Device.cpu [1, 1, 1, 1, 1, 1, 1, 1]

/-- A delta with 3 elements — not reshapeable onto [2, 4]. -/
def c7w3 : Tensor := Tensor.mk [3] Dtype.float32 Device.cpu [1, 1, 1]

/-! ### Association-list lemmas -/

theorem lookupA_append_some {κ α : Type} [DecidableEq κ] {l₁ l₂ : List (κ × α)} {k : κ}
    {v : α} (h : lookupA l₁ k = some v) : lookupA (l₁ ++ l₂) k = some v := by
  induction l₁ with
  | nil => simp [lookupA] at h
  | cons x xs ih =>
    by_cases hx : x.1 = k
    · simp only [lookupA, List.cons_append, if_pos hx] at h ⊢
      exact h
    · simp only [lookupA, List.cons_append, if_neg hx] at h ⊢
      exact ih h

theorem lookupA_append_none {κ α : Type} [DecidableEq κ] {l₁ : List (κ × α)} (l₂ : List (κ × α))
    {k : κ} (h : lookupA l₁ k = none) : lookupA (l₁ ++ l₂) k = lookupA l₂ k := by
  induction l₁ with
  | nil => simp
  | cons x xs ih =>
    by_cases hx : x.1 = k
    · simp only [lookupA, if_pos hx] at h
      exact absurd h (by simp)
    · simp only [lookupA, List.cons_append, if_neg hx] at h ⊢
      exact ih h

theorem lookupA_none_iff {κ α : Type} [DecidableEq κ] {l : List (κ × α)} {k : κ} :
    lookupA l k = none ↔ k ∉ l.map (fun x => x.1) := by
  induction l with
  | nil => simp [lookupA]
  | cons x xs ih =>
    by_cases hx : x.1 = k
    · simp [lookupA, if_pos hx, hx]
    · simp only [lookupA, if_neg hx, List.map_cons, List.mem_cons, ih]
      constructor
      · rintro h (rfl | h₂)
        · exact hx rfl
        · exact h h₂
      · exact fun h hm => h (Or.inr hm)

theorem lookupA_mem {κ α : Type} [DecidableEq κ] {l : List (κ × α)} {k : κ} {v : α}
    (h : lookupA l k = some v) : (k, v) ∈ l := by
  induction l with
  | nil => simp [lookupA] at h
  | cons x xs ih =>
    by_cases hx : x.1 = k
    · simp only [lookupA, if_pos hx] at h
      injection h with h₂
      subst h₂
      rw [← hx]
      simp
    · simp only [lookupA, if_neg hx] at h
      exact List.mem_cons_of_mem _ (ih h)

theorem lookupA_setA_self {κ α : Type} [DecidableEq κ] {l : List (κ × α)} {k : κ} (t : α) :
    lookupA (setA l k t) k = (lookupA l k).map (fun _ => t) := by
  induction l with
  | nil => simp [lookupA, setA]
  | cons x xs ih =>
    by_cases hx : x.1 = k
    · simp [setA, if_pos hx, lookupA, hx]
    · simp only [setA, if_neg hx, lookupA, ih]

theorem lookupA_setA_ne {κ α : Type} [DecidableEq κ] {l : List (κ × α)} {k k' : κ} (t : α)
    (h : k' ≠ k) : lookupA (setA l k t) k' = lookupA l k' := by
  induction l with
  | nil => simp [lookupA, setA]
  | cons x xs ih =>
    by_cases hx : x.1 = k
    · have hc2 : ¬(x.1 = k') := fun hh => h (by rw [← hh]; exact hx)
      simp only [setA, if_pos hx, lookupA]
      rw [if_neg (fun hk => h hk.symm), if_neg hc2]
    · simp only [setA, if_neg hx, lookupA, ih]

/-! ### Model get/set lemmas -/

theorem Model.tree_setParam (m : Model) (k : Key) (t : Tensor) :
    (m.setParam k t).tree = m.tree := rfl

theorem Model.getParam_setParam_self {m : Model} {k : Key} {p : Tensor} (t : Tensor)
    (h : m.getParam k = some p) : (m.setParam k t).getParam k = some t := by
  unfold Model.getParam Model.setParam at *
  rw [lookupA_setA_self, h]
  rfl

theorem Model.getParam_setParam_ne {m : Model} {k k' : Key} (t : Tensor) (h : k' ≠ k) :
    (m.setParam k t).getParam k' = m.getParam k' := by
  unfold Model.getParam Model.setParam
  exact lookupA_setA_ne t h

/-! ### Bookkeeping lemmas (lines 129-135) -/

theorem bookKeep_model (cached : List (Key × Tensor)) (st : PatchState) (k : Key) (mp : Tensor) :
    (bookKeep cached st k mp).model = st.model := by
  unfold bookKeep
  split
  · rfl
  · split <;> rfl

theorem bookKeep_touches (cached : List (Key × Tensor)) (st : PatchState) (k : Key)
    (mp : Tensor) :
    k ∈ (bookKeep cached st k mp).modifiedCached ∨
      (lookupA (bookKeep cached st k mp).modifiedWeights k).isSome := by
  by_cases h1 : k ∈ st.modifiedCached ∨ (lookupA st.modifiedWeights k).isSome
  · unfold bookKeep
    rw [if_pos h1]
    exact h1
  · have h1' := not_or.mp h1
    have hmw : lookupA st.modifiedWeights k = none := by
      cases hcase : lookupA st.modifiedWeights k
      · rfl
      · exact absurd (by simp [hcase]) h1'.2
    by_cases h2 : (lookupA cached k).isSome
    · unfold bookKeep
      rw [if_neg h1, if_pos h2]
      left
      simp
    · unfold bookKeep
      rw [if_neg h1, if_neg h2]
      right
      rw [lookupA_append_none _ hmw]
      simp [lookupA]

/-- Inversion of a successful `patchParam` call: the looked-up live parameter,
the scaled layer tensor handed back, and the new state (bookkeeping plus the
in-place `+=` on the model). -/
theorem patchParam_ok {cached : List (Key × Tensor)} {lw ls : ℚ} {dt : Dtype} {modPath : Key}
    {st : PatchState} {pname : String} {w : Tensor} {st' : PatchState} {w' : Tensor}
    (h : patchParam cached lw ls dt modPath st pname w = .ok (st', w')) :
    ∃ mp, st.model.getParam (modPath ++ [pname]) = some mp ∧
      ¬(mp.shape ≠ w.shape ∧ w.shape.prod ≠ mp.shape.prod) ∧
      w' = { w with vals := scaleVals (lw * ls) w.vals } ∧
      st'.modifiedWeights = (bookKeep cached st (modPath ++ [pname]) mp).modifiedWeights ∧
      st'.modifiedCached = (bookKeep cached st (modPath ++ [pname]) mp).modifiedCached ∧
      st'.model = st.model.setParam (modPath ++ [pname])
        { mp with vals := addVals mp.vals (scaleVals (lw * ls) w.vals) } := by
  simp only [patchParam] at h
  split at h
  · exact absurd h (by simp)
  · rename_i mp hmp
    split at h
    · exact absurd h (by simp)
    · rename_i hshape
      rw [Except.ok.injEq, Prod.mk.injEq] at h
      obtain ⟨hst, hw⟩ := h
      refine ⟨mp, hmp, hshape, hw.symm, ?_, ?_, ?_⟩ <;>
        rw [← hst] <;> simp [bookKeep_model]

/-! ### The patcher never touches the submodule name tree -/

theorem patchParam_tree {cached lw ls dt modPath st pname w st' w'}
    (h : patchParam cached lw ls dt modPath st pname w = .ok (st', w')) :
    st'.model.tree = st.model.tree := by
  obtain ⟨mp, _, _, _, _, _, hmodel⟩ := patchParam_ok h
  rw [hmodel]
  rfl

theorem patchParams_tree {cached : List (Key × Tensor)} {lw ls : ℚ} {dt : Dtype} {modPath : Key} :
    ∀ {ps : List (String × Tensor)} {st st₂ : PatchState} {outs : List (String × Tensor)},
      patchParams cached lw ls dt modPath st ps = .ok (st₂, outs) →
      st₂.model.tree = st.model.tree := by
  intro ps
  induction ps with
  | nil =>
    intro st st₂ outs h
    simp only [patchParams] at h
    rw [Except.ok.injEq, Prod.mk.injEq] at h
    rw [← h.1]
  | cons x rest ih =>
    intro st st₂ outs h
    obtain ⟨pn, w⟩ := x
    cases hpp : patchParam cached lw ls dt modPath st pn w with
    | error e => simp [patchParams, hpp] at h
    | ok pr =>
      obtain ⟨st₁, w₁⟩ := pr
      cases hps : patchParams cached lw ls dt modPath st₁ rest with
      | error e => simp [patchParams, hpp, hps] at h
      | ok pr₂ =>
        obtain ⟨st₂', outs'⟩ := pr₂
        simp only [patchParams, hpp, hps] at h
        rw [Except.ok.injEq, Prod.mk.injEq] at h
        rw [← h.1, ih hps, patchParam_tree hpp]

theorem patchLayer_tree {cached : List (Key × Tensor)} {pfx : String} {lw : ℚ}
    {st : PatchState} {lkey : String} {layer : LoraLayer} {st' : PatchState} {ly' : LoraLayer}
    (h : patchLayer cached pfx lw st lkey layer = .ok (st', ly')) :
    st'.model.tree = st.model.tree := by
  by_cases hpfx : strHasPfx lkey pfx
  · cases hres : resolve_lora_key st.model.tree lkey pfx with
    | error e => simp [patchLayer, hpfx, hres] at h
    | ok r =>
      obtain ⟨mkey, modPath, module⟩ := r
      cases hwp : st.model.getParam (modPath ++ ["weight"]) with
      | none => simp [patchLayer, hpfx, hres, hwp] at h
      | some wparam =>
        cases hps : patchParams cached lw (layerScale layer) wparam.dtype modPath st
            (stageLayerParams wparam.device layer.params) with
        | error e => simp [patchLayer, hpfx, hres, hwp, hps] at h
        | ok pr =>
          obtain ⟨st₂', outs'⟩ := pr
          simp only [patchLayer] at h
          rw [if_neg (by simp [hpfx])] at h
          simp only [hres, hwp, hps] at h
          rw [Except.ok.injEq, Prod.mk.injEq] at h
          rw [← h.1]
          exact patchParams_tree hps
  · simp only [patchLayer, if_pos hpfx] at h
    rw [Except.ok.injEq, Prod.mk.injEq] at h
    rw [← h.1]

theorem patchLayers_tree {cached : List (Key × Tensor)} {pfx : String} {lw : ℚ} :
    ∀ {lys : List (String × LoraLayer)} {st st₂ : PatchState} {outs : List (String × LoraLayer)},
      patchLayers cached pfx lw st lys = .ok (st₂, outs) →
      st₂.model.tree = st.model.tree := by
  intro lys
  induction lys with
  | nil =>
    intro st st₂ outs h
    simp only [patchLayers] at h
    rw [Except.ok.injEq, Prod.mk.injEq] at h
    rw [← h.1]
  | cons x rest ih =>
    intro st st₂ outs h
    obtain ⟨lk, ly⟩ := x
    cases hpl : patchLayer cached pfx lw st lk ly with
    | error e => simp [patchLayers, hpl] at h
    | ok pr =>
      obtain ⟨st₁, ly₁⟩ := pr
      cases hls : patchLayers cached pfx lw st₁ rest with
      | error e => simp [patchLayers, hpl, hls] at h
      | ok pr₂ =>
        obtain ⟨st₂', outs'⟩ := pr₂
        simp only [patchLayers, hpl, hls] at h
        rw [Except.ok.injEq, Prod.mk.injEq] at h
        rw [← h.1, ih hls, patchLayer_tree hpl]

theorem patchLoras_tree {cached : List (Key × Tensor)} {pfx : String} :
    ∀ {loras : List (LoraModel × ℚ)} {st st₂ : PatchState} {outs : List (LoraModel × ℚ)},
      patchLoras cached pfx st loras = .ok (st₂, outs) →
      st₂.model.tree = st.model.tree := by
  intro loras
  induction loras with
  | nil =>
    intro st st₂ outs h
    simp only [patchLoras] at h
    rw [Except.ok.injEq, Prod.mk.injEq] at h
    rw [← h.1]
  | cons x rest ih =>
    intro st st₂ outs h
    obtain ⟨lm, lw⟩ := x
    cases hpl : patchLayers cached pfx lw st lm.layers with
    | error e => simp [patchLoras, hpl] at h
    | ok pr =>
      obtain ⟨st₁, ls₁⟩ := pr
      cases hls : patchLoras cached pfx st₁ rest with
      | error e => simp [patchLoras, hpl, hls] at h
      | ok pr₂ =>
        obtain ⟨st₂', outs'⟩ := pr₂
        simp only [patchLoras, hpl, hls] at h
        rw [Except.ok.injEq, Prod.mk.injEq] at h
        rw [← h.1, ih hls, patchLayers_tree hpl]

/-! ### Value evolution: the patched model replays the ordered contributions -/

theorem patchParam_val {cached lw ls dt modPath st pname w st' w'}
    (h : patchParam cached lw ls dt modPath st pname w = .ok (st', w')) (k : Key) :
    st'.model.getParam k =
      if modPath ++ [pname] = k then
        (st.model.getParam k).map
          (fun p => { p with vals := addVals p.vals (scaleVals (lw * ls) w.vals) })
      else st.model.getParam k := by
  obtain ⟨mp, hmp, _, _, _, _, hmodel⟩ := patchParam_ok h
  rw [hmodel]
  by_cases hk : modPath ++ [pname] = k
  · subst hk
    rw [if_pos rfl, Model.getParam_setParam_self _ hmp, hmp]
    rfl
  · rw [if_neg hk]
    exact Model.getParam_setParam_ne _ (fun hh => hk hh.symm)

theorem patchParams_val {cached : List (Key × Tensor)} {lw ls : ℚ} {dt : Dtype} {modPath : Key} :
    ∀ {ps : List (String × Tensor)} {st st₂ : PatchState} {outs : List (String × Tensor)},
      patchParams cached lw ls dt modPath st ps = .ok (st₂, outs) → ∀ k,
      st₂.model.getParam k =
        (st.model.getParam k).map
          (fun p => { p with
            vals := (paramsContrib (lw * ls) modPath ps k).foldl addVals p.vals }) := by
  intro ps
  induction ps with
  | nil =>
    intro st st₂ outs h k
    simp only [patchParams] at h
    rw [Except.ok.injEq, Prod.mk.injEq] at h
    rw [← h.1]
    simp only [paramsContrib, List.foldl_nil]
    cases st.model.getParam k <;> rfl
  | cons x rest ih =>
    intro st st₂ outs h k
    obtain ⟨pn, w⟩ := x
    cases hpp : patchParam cached lw ls dt modPath st pn w with
    | error e => simp [patchParams, hpp] at h
    | ok pr =>
      obtain ⟨st₁, w₁⟩ := pr
      cases hps : patchParams cached lw ls dt modPath st₁ rest with
      | error e => simp [patchParams, hpp, hps] at h
      | ok pr₂ =>
        obtain ⟨st₂', outs'⟩ := pr₂
        simp only [patchParams, hpp, hps] at h
        rw [Except.ok.injEq, Prod.mk.injEq] at h
        rw [← h.1, ih hps k, patchParam_val hpp k]
        by_cases hk : modPath ++ [pn] = k
        · rw [if_pos hk]
          simp only [paramsContrib, if_pos hk, List.singleton_append, List.foldl_cons]
          cases st.model.getParam k <;> rfl
        · rw [if_neg hk]
          simp only [paramsContrib, if_neg hk, List.nil_append]

theorem paramsContrib_stage (c : ℚ) (modPath : Key) (d : Device)
    (ps : List (String × Tensor)) (k : Key) :
    paramsContrib c modPath (stageLayerParams d ps) k = paramsContrib c modPath ps k := by
  induction ps with
  | nil => rfl
  | cons x rest ih =>
    simp only [stageLayerParams, List.map_cons, paramsContrib] at ih ⊢
    rw [ih]

theorem patchLayer_val {cached : List (Key × Tensor)} {pfx : String} {lw : ℚ}
    {st : PatchState} {lkey : String} {layer : LoraLayer} {st' : PatchState} {ly' : LoraLayer}
    (h : patchLayer cached pfx lw st lkey layer = .ok (st', ly')) (k : Key) :
    st'.model.getParam k =
      (st.model.getParam k).map
        (fun p => { p with
          vals := (layerContrib st.model.tree pfx lw lkey layer k).foldl addVals p.vals }) := by
  by_cases hpfx : strHasPfx lkey pfx
  · cases hres : resolve_lora_key st.model.tree lkey pfx with
    | error e => simp [patchLayer, hpfx, hres] at h
    | ok r =>
      obtain ⟨mkey, modPath, module⟩ := r
      cases hwp : st.model.getParam (modPath ++ ["weight"]) with
      | none => simp [patchLayer, hpfx, hres, hwp] at h
      | some wparam =>
        cases hps : patchParams cached lw (layerScale layer) wparam.dtype modPath st
            (stageLayerParams wparam.device layer.params) with
        | error e => simp [patchLayer, hpfx, hres, hwp, hps] at h
        | ok pr =>
          obtain ⟨st₂', outs'⟩ := pr
          simp only [patchLayer] at h
          rw [if_neg (by simp [hpfx])] at h
          simp only [hres, hwp, hps] at h
          rw [Except.ok.injEq, Prod.mk.injEq] at h
          rw [← h.1, patchParams_val hps k, paramsContrib_stage]
          rw [layerContrib, if_neg (by simp [hpfx]), hres]
  · simp only [patchLayer, if_pos hpfx] at h
    rw [Except.ok.injEq, Prod.mk.injEq] at h
    rw [← h.1]
    simp only [layerContrib, if_pos hpfx, List.foldl_nil]
    cases st.model.getParam k <;> rfl

theorem patchLayers_val {cached : List (Key × Tensor)} {pfx : String} {lw : ℚ} :
    ∀ {lys : List (String × LoraLayer)} {st st₂ : PatchState} {outs : List (String × LoraLayer)},
      patchLayers cached pfx lw st lys = .ok (st₂, outs) → ∀ k,
      st₂.model.getParam k =
        (st.model.getParam k).map
          (fun p => { p with
            vals := (layersContrib st.model.tree pfx lw lys k).foldl addVals p.vals }) := by
  intro lys
  induction lys with
  | nil =>
    intro st st₂ outs h k
    simp only [patchLayers] at h
    rw [Except.ok.injEq, Prod.mk.injEq] at h
    rw [← h.1]
    simp only [layersContrib, List.foldl_nil]
    cases st.model.getParam k <;> rfl
  | cons x rest ih =>
    intro st st₂ outs h k
    obtain ⟨lk, ly⟩ := x
    cases hpl : patchLayer cached pfx lw st lk ly with
    | error e => simp [patchLayers, hpl] at h
    | ok pr =>
      obtain ⟨st₁, ly₁⟩ := pr
      cases hls : patchLayers cached pfx lw st₁ rest with
      | error e => simp [patchLayers, hpl, hls] at h
      | ok pr₂ =>
        obtain ⟨st₂', outs'⟩ := pr₂
        simp only [patchLayers, hpl, hls] at h
        rw [Except.ok.injEq, Prod.mk.injEq] at h
        rw [← h.1, ih hls k, patchLayer_val hpl k, patchLayer_tree hpl]
        simp only [layersContrib, List.foldl_append]
        cases st.model.getParam k <;> rfl

theorem patchLoras_val {cached : List (Key × Tensor)} {pfx : String} :
    ∀ {loras : List (LoraModel × ℚ)} {st st₂ : PatchState} {outs : List (LoraModel × ℚ)},
      patchLoras cached pfx st loras = .ok (st₂, outs) → ∀ k,
      st₂.model.getParam k =
        (st.model.getParam k).map
          (fun p => { p with
            vals := (lorasContrib st.model.tree pfx loras k).foldl addVals p.vals }) := by
  intro loras
  induction loras with
  | nil =>
    intro st st₂ outs h k
    simp only [patchLoras] at h
    rw [Except.ok.injEq, Prod.mk.injEq] at h
    rw [← h.1]
    simp only [lorasContrib, List.foldl_nil]
    cases st.model.getParam k <;> rfl
  | cons x rest ih =>
    intro st st₂ outs h k
    obtain ⟨lm, lw⟩ := x
    cases hpl : patchLayers cached pfx lw st lm.layers with
    | error e => simp [patchLoras, hpl] at h
    | ok pr =>
      obtain ⟨st₁, ls₁⟩ := pr
      cases hls : patchLoras cached pfx st₁ rest with
      | error e => simp [patchLoras, hpl, hls] at h
      | ok pr₂ =>
        obtain ⟨st₂', outs'⟩ := pr₂
        simp only [patchLoras, hpl, hls] at h
        rw [Except.ok.injEq, Prod.mk.injEq] at h
        rw [← h.1, ih hls k, patchLayers_val hpl k, patchLayers_tree hpl]
        simp only [lorasContrib, List.foldl_append]
        cases st.model.getParam k <;> rfl

/-! ### Auxiliary option and list facts -/

theorem lookupA_append_inv {κ α : Type} [DecidableEq κ] {l₁ l₂ : List (κ × α)} {k : κ} {v : α}
    (h : lookupA (l₁ ++ l₂) k = some v) :
    lookupA l₁ k = some v ∨ (lookupA l₁ k = none ∧ lookupA l₂ k = some v) := by
  cases hl : lookupA l₁ k with
  | none =>
    right
    exact ⟨rfl, by rwa [lookupA_append_none _ hl] at h⟩
  | some u =>
    left
    have heq := (lookupA_append_some hl).symm.trans h
    injection heq with hv
    rw [hv]

theorem lookupA_singleton_some {κ α : Type} [DecidableEq κ] {k k' : κ} {t : α} {v : α}
    (h : lookupA [(k, t)] k' = some v) : k' = k ∧ v = t := by
  by_cases hk : k = k'
  · simp only [lookupA, if_pos hk] at h
    injection h with hv
    exact ⟨hk.symm, hv.symm⟩
  · simp only [lookupA, if_neg hk] at h
    exact absurd h (by simp)

theorem lookupA_singleton_ne {κ α : Type} [DecidableEq κ] {k k' : κ} (t : α)
    (h : k' ≠ k) : lookupA [(k, t)] k' = none := by
  have hc : ¬(k = k') := fun hh => h hh.symm
  simp only [lookupA, if_neg hc]

theorem meta_pres_some {a b : Option Tensor} (h : a.map tmeta = b.map tmeta) {p : Tensor}
    (hb : b = some p) : ∃ q, a = some q ∧ tmeta q = tmeta p := by
  subst hb
  cases a with
  | none => simp at h
  | some q =>
    refine ⟨q, rfl, ?_⟩
    simpa using h

theorem map_tmeta_isSome {a b : Option Tensor} (h : a.map tmeta = b.map tmeta)
    (hb : a.isSome) : b.isSome := by
  cases a with
  | none => simp at hb
  | some q =>
    cases b with
    | none => simp at h
    | some r => rfl

/-! ### The three branches of the first-touch bookkeeping -/

theorem bookKeep_cases (cached : List (Key × Tensor)) (st : PatchState) (k : Key) (mp : Tensor) :
    ((k ∈ st.modifiedCached ∨ (lookupA st.modifiedWeights k).isSome) ∧
        bookKeep cached st k mp = st) ∨
      (k ∉ st.modifiedCached ∧ lookupA st.modifiedWeights k = none ∧
        (lookupA cached k).isSome ∧
        bookKeep cached st k mp = { st with modifiedCached := st.modifiedCached ++ [k] }) ∨
      (k ∉ st.modifiedCached ∧ lookupA st.modifiedWeights k = none ∧
        lookupA cached k = none ∧
        bookKeep cached st k mp =
          { st with modifiedWeights :=
              st.modifiedWeights ++ [(k, { mp with device := Device.cpu })] }) := by
  by_cases h1 : k ∈ st.modifiedCached ∨ (lookupA st.modifiedWeights k).isSome
  · exact Or.inl ⟨h1, by unfold bookKeep; rw [if_pos h1]⟩
  · have h1' := not_or.mp h1
    have hmw : lookupA st.modifiedWeights k = none := by
      cases hcase : lookupA st.modifiedWeights k
      · rfl
      · exact absurd (by simp [hcase]) h1'.2
    by_cases h2 : (lookupA cached k).isSome
    · exact Or.inr (Or.inl ⟨h1'.1, hmw, h2, by unfold bookKeep; rw [if_neg h1, if_pos h2]⟩)
    · have hc : lookupA cached k = none := by
        cases hcase : lookupA cached k
        · rfl
        · exact absurd (by simp [hcase]) h2
      exact Or.inr (Or.inr ⟨h1'.1, hmw, hc, by unfold bookKeep; rw [if_neg h1, if_neg h2]⟩)

/-! ### The session invariant maintained by the patch loop -/

/-- Everything `_patch_model` maintains while patching, relative to the initial
model `m0` and the external cache: the name tree is untouched, parameter
metadata is unchanged, every entry of `modified_weights` is a CPU copy of the
parameter's pre-session value, keys go to `modified_cached_weights` exactly
when the external cache holds them, untouched parameters still have their
pre-session tensors, and the two bookkeeping collections are duplicate-free
and disjoint. -/
structure Inv (m0 : Model) (cached : List (Key × Tensor)) (st : PatchState) : Prop where
  tree_eq : st.model.tree = m0.tree
  meta_pres : ∀ k, (st.model.getParam k).map tmeta = (m0.getParam k).map tmeta
  saved_orig : ∀ k t, lookupA st.modifiedWeights k = some t →
    ∃ p, m0.getParam k = some p ∧ t = { p with device := Device.cpu }
  saved_not_cached : ∀ k, (lookupA st.modifiedWeights k).isSome → lookupA cached k = none
  cached_mem : ∀ k, k ∈ st.modifiedCached → (lookupA cached k).isSome
  untouched : ∀ k, k ∉ st.modifiedCached → lookupA st.modifiedWeights k = none →
    st.model.getParam k = m0.getParam k
  mw_nodup : (st.modifiedWeights.map (fun x => x.1)).Nodup
  mc_nodup : st.modifiedCached.Nodup
  disj : ∀ k, k ∈ st.modifiedCached → lookupA st.modifiedWeights k = none
  touched_present : ∀ k, (k ∈ st.modifiedCached ∨ (lookupA st.modifiedWeights k).isSome) →
    (m0.getParam k).isSome

theorem Inv.init (m0 : Model) (cached : List (Key × Tensor)) :
    Inv m0 cached ⟨m0, [], []⟩ := by
  refine ⟨rfl, fun k => rfl, ?_, ?_, ?_, fun k _ _ => rfl, ?_, ?_, ?_, ?_⟩
  · intro k t h
    simp [lookupA] at h
  · intro k h
    simp [lookupA] at h
  · intro k h
    simp at h
  · simp
  · simp
  · intro k h
    simp at h
  · intro k h
    rcases h with h | h
    · simp at h
    · simp [lookupA] at h

theorem patchParam_inv {cached lw ls dt modPath st pname w st' w'} {m0 : Model}
    (hI : Inv m0 cached st)
    (h : patchParam cached lw ls dt modPath st pname w = .ok (st', w')) :
    Inv m0 cached st' := by
  obtain ⟨mp, hmp, _, _, hmw, hmc, hmodel⟩ := patchParam_ok h
  have hkey_touched : (modPath ++ [pname]) ∈ st'.modifiedCached ∨
      (lookupA st'.modifiedWeights (modPath ++ [pname])).isSome := by
    rw [hmw, hmc]
    exact bookKeep_touches cached st _ mp
  have hm0key : (m0.getParam (modPath ++ [pname])).isSome := by
    refine map_tmeta_isSome (hI.meta_pres _) ?_
    rw [hmp]
    rfl
  rcases bookKeep_cases cached st (modPath ++ [pname]) mp with
    ⟨_, hbk⟩ | ⟨hnc, hnw, _, hbk⟩ | ⟨hnc, hnw, hcnone, hbk⟩
  all_goals rw [hbk] at hmw hmc
  -- branch 1: key already touched, bookkeeping unchanged
  · refine ⟨?_, ?_, ?_, ?_, ?_, ?_, ?_, ?_, ?_, ?_⟩
    · rw [hmodel, Model.tree_setParam, hI.tree_eq]
    · intro k
      by_cases hk : k = modPath ++ [pname]
      · subst hk
        rw [hmodel, Model.getParam_setParam_self _ hmp]
        have := hI.meta_pres (modPath ++ [pname])
        rw [hmp] at this
        rw [← this]
        rfl
      · rw [hmodel, Model.getParam_setParam_ne _ hk]
        exact hI.meta_pres k
    · intro k t ht
      rw [hmw] at ht
      exact hI.saved_orig k t ht
    · intro k ht
      rw [hmw] at ht
      exact hI.saved_not_cached k ht
    · intro k hk
      rw [hmc] at hk
      exact hI.cached_mem k hk
    · intro k hk₁ hk₂
      have hkne : k ≠ modPath ++ [pname] := by
        rintro rfl
        rcases hkey_touched with hc | hw
        · exact hk₁ hc
        · rw [hk₂] at hw
          exact absurd hw (by simp)
      rw [hmodel, Model.getParam_setParam_ne _ hkne]
      rw [hmc] at hk₁
      rw [hmw] at hk₂
      exact hI.untouched k hk₁ hk₂
    · rw [hmw]
      exact hI.mw_nodup
    · rw [hmc]
      exact hI.mc_nodup
    · intro k hk
      rw [hmc] at hk
      rw [hmw]
      exact hI.disj k hk
    · intro k hk
      rw [hmc, hmw] at hk
      exact hI.touched_present k hk
  -- branch 2: first touch of a cached key
  · refine ⟨?_, ?_, ?_, ?_, ?_, ?_, ?_, ?_, ?_, ?_⟩
    · rw [hmodel, Model.tree_setParam, hI.tree_eq]
    · intro k
      by_cases hk : k = modPath ++ [pname]
      · subst hk
        rw [hmodel, Model.getParam_setParam_self _ hmp]
        have := hI.meta_pres (modPath ++ [pname])
        rw [hmp] at this
        rw [← this]
        rfl
      · rw [hmodel, Model.getParam_setParam_ne _ hk]
        exact hI.meta_pres k
    · intro k t ht
      rw [hmw] at ht
      exact hI.saved_orig k t ht
    · intro k ht
      rw [hmw] at ht
      exact hI.saved_not_cached k ht
    · intro k hk
      rw [hmc] at hk
      rcases List.mem_append.mp hk with hold | hnew
      · exact hI.cached_mem k hold
      · rw [List.mem_singleton.mp hnew]
        assumption
    · intro k hk₁ hk₂
      have hkne : k ≠ modPath ++ [pname] := by
        rintro rfl
        rcases hkey_touched with hc | hw
        · exact hk₁ hc
        · rw [hk₂] at hw
          exact absurd hw (by simp)
      rw [hmodel, Model.getParam_setParam_ne _ hkne]
      rw [hmc] at hk₁
      rw [hmw] at hk₂
      exact hI.untouched k (fun hm => hk₁ (List.mem_append_left _ hm)) hk₂
    · rw [hmw]
      exact hI.mw_nodup
    · rw [hmc]
      rw [List.nodup_append]
      refine ⟨hI.mc_nodup, List.nodup_singleton _, ?_⟩
      intro a ha hb
      rw [List.mem_singleton.mp hb] at ha
      exact hnc ha
    · intro k hk
      rw [hmc] at hk
      rw [hmw]
      rcases List.mem_append.mp hk with hold | hnew
      · exact hI.disj k hold
      · rw [List.mem_singleton.mp hnew]
        exact hnw
    · intro k hk
      rw [hmc, hmw] at hk
      rcases hk with hk | hk
      · rcases List.mem_append.mp hk with hold | hnew
        · exact hI.touched_present k (Or.inl hold)
        · rw [List.mem_singleton.mp hnew]
          exact hm0key
      · exact hI.touched_present k (Or.inr hk)
  -- branch 3: first touch of an uncached key, saved to modified_weights
  · have huntouched := hI.untouched (modPath ++ [pname]) hnc hnw
    refine ⟨?_, ?_, ?_, ?_, ?_, ?_, ?_, ?_, ?_, ?_⟩
    · rw [hmodel, Model.tree_setParam, hI.tree_eq]
    · intro k
      by_cases hk : k = modPath ++ [pname]
      · subst hk
        rw [hmodel, Model.getParam_setParam_self _ hmp]
        have := hI.meta_pres (modPath ++ [pname])
        rw [hmp] at this
        rw [← this]
        rfl
      · rw [hmodel, Model.getParam_setParam_ne _ hk]
        exact hI.meta_pres k
    · intro k t ht
      rw [hmw] at ht
      rcases lookupA_append_inv ht with hold | ⟨_, hnew⟩
      · exact hI.saved_orig k t hold
      · obtain ⟨hkk, htt⟩ := lookupA_singleton_some hnew
        subst hkk
        refine ⟨mp, ?_, ?_⟩
        · rw [← huntouched, hmp]
        · rw [htt]
    · intro k ht
      rw [hmw] at ht
      rcases hcase : lookupA (st.modifiedWeights ++ [(modPath ++ [pname],
          { mp with device := Device.cpu })]) k with hnone | tv
      · rw [hcase] at ht
        exact absurd ht (by simp)
      · rcases lookupA_append_inv hcase with hold | ⟨_, hnew⟩
        · exact hI.saved_not_cached k (by rw [hold]; rfl)
        · obtain ⟨hkk, _⟩ := lookupA_singleton_some hnew
          subst hkk
          exact hcnone
    · intro k hk
      rw [hmc] at hk
      exact hI.cached_mem k hk
    · intro k hk₁ hk₂
      have hkne : k ≠ modPath ++ [pname] := by
        rintro rfl
        rcases hkey_touched with hc | hw
        · exact hk₁ hc
        · rw [hk₂] at hw
          exact absurd hw (by simp)
      rw [hmodel, Model.getParam_setParam_ne _ hkne]
      rw [hmc] at hk₁
      rw [hmw] at hk₂
      refine hI.untouched k hk₁ ?_
      cases hcase : lookupA st.modifiedWeights k with
      | none => rfl
      | some t =>
        rw [lookupA_append_some hcase] at hk₂
        exact absurd hk₂ (by simp)
    · rw [hmw, List.map_append, List.map_singleton]
      rw [List.nodup_append]
      refine ⟨hI.mw_nodup, List.nodup_singleton _, ?_⟩
      intro a ha hb
      rw [List.mem_singleton.mp hb] at ha
      exact (lookupA_none_iff.mp hnw) ha
    · rw [hmc]
      exact hI.mc_nodup
    · intro k hk
      rw [hmc] at hk
      rw [hmw]
      have hkne : k ≠ modPath ++ [pname] := by
        rintro rfl
        exact hnc hk
      rw [lookupA_append_none _ (hI.disj k hk)]
      exact lookupA_singleton_ne _ hkne
    · intro k hk
      rw [hmc, hmw] at hk
      rcases hk with hk | hk
      · exact hI.touched_present k (Or.inl hk)
      · rcases hcase : lookupA (st.modifiedWeights ++ [(modPath ++ [pname],
            { mp with device := Device.cpu })]) k with hnone | tv
        · rw [hcase] at hk
          exact absurd hk (by simp)
        · rcases lookupA_append_inv hcase with hold | ⟨_, hnew⟩
          · exact hI.touched_present k (Or.inr (by rw [hold]; rfl))
          · obtain ⟨hkk, _⟩ := lookupA_singleton_some hnew
            subst hkk
            exact hm0key

theorem patchParams_inv {cached : List (Key × Tensor)} {lw ls : ℚ} {dt : Dtype} {modPath : Key}
    {m0 : Model} :
    ∀ {ps : List (String × Tensor)} {st st₂ : PatchState} {outs : List (String × Tensor)},
      Inv m0 cached st → patchParams cached lw ls dt modPath st ps = .ok (st₂, outs) →
      Inv m0 cached st₂ := by
  intro ps
  induction ps with
  | nil =>
    intro st st₂ outs hI h
    simp only [patchParams] at h
    rw [Except.ok.injEq, Prod.mk.injEq] at h
    rw [← h.1]
    exact hI
  | cons x rest ih =>
    intro st st₂ outs hI h
    obtain ⟨pn, w⟩ := x
    cases hpp : patchParam cached lw ls dt modPath st pn w with
    | error e => simp [patchParams, hpp] at h
    | ok pr =>
      obtain ⟨st₁, w₁⟩ := pr
      cases hps : patchParams cached lw ls dt modPath st₁ rest with
      | error e => simp [patchParams, hpp, hps] at h
      | ok pr₂ =>
        obtain ⟨st₂', outs'⟩ := pr₂
        simp only [patchParams, hpp, hps] at h
        rw [Except.ok.injEq, Prod.mk.injEq] at h
        rw [← h.1]
        exact ih (patchParam_inv hI hpp) hps

theorem patchLayer_inv {cached : List (Key × Tensor)} {pfx : String} {lw : ℚ}
    {st : PatchState} {lkey : String} {layer : LoraLayer} {st' : PatchState} {ly' : LoraLayer}
    {m0 : Model} (hI : Inv m0 cached st)
    (h : patchLayer cached pfx lw st lkey layer = .ok (st', ly')) :
    Inv m0 cached st' := by
  by_cases hpfx : strHasPfx lkey pfx
  · cases hres : resolve_lora_key st.model.tree lkey pfx with
    | error e => simp [patchLayer, hpfx, hres] at h
    | ok r =>
      obtain ⟨mkey, modPath, module⟩ := r
      cases hwp : st.model.getParam (modPath ++ ["weight"]) with
      | none => simp [patchLayer, hpfx, hres, hwp] at h
      | some wparam =>
        cases hps : patchParams cached lw (layerScale layer) wparam.dtype modPath st
            (stageLayerParams wparam.device layer.params) with
        | error e => simp [patchLayer, hpfx, hres, hwp, hps] at h
        | ok pr =>
          obtain ⟨st₂', outs'⟩ := pr
          simp only [patchLayer] at h
          rw [if_neg (by simp [hpfx])] at h
          simp only [hres, hwp, hps] at h
          rw [Except.ok.injEq, Prod.mk.injEq] at h
          rw [← h.1]
          exact patchParams_inv hI hps
  · simp only [patchLayer, if_pos hpfx] at h
    rw [Except.ok.injEq, Prod.mk.injEq] at h
    rw [← h.1]
    exact hI

theorem patchLayers_inv {cached : List (Key × Tensor)} {pfx : String} {lw : ℚ} {m0 : Model} :
    ∀ {lys : List (String × LoraLayer)} {st st₂ : PatchState} {outs : List (String × LoraLayer)},
      Inv m0 cached st → patchLayers cached pfx lw st lys = .ok (st₂, outs) →
      Inv m0 cached st₂ := by
  intro lys
  induction lys with
  | nil =>
    intro st st₂ outs hI h
    simp only [patchLayers] at h
    rw [Except.ok.injEq, Prod.mk.injEq] at h
    rw [← h.1]
    exact hI
  | cons x rest ih =>
    intro st st₂ outs hI h
    obtain ⟨lk, ly⟩ := x
    cases hpl : patchLayer cached pfx lw st lk ly with
    | error e => simp [patchLayers, hpl] at h
    | ok pr =>
      obtain ⟨st₁, ly₁⟩ := pr
      cases hls : patchLayers cached pfx lw st₁ rest with
      | error e => simp [patchLayers, hpl, hls] at h
      | ok pr₂ =>
        obtain ⟨st₂', outs'⟩ := pr₂
        simp only [patchLayers, hpl, hls] at h
        rw [Except.ok.injEq, Prod.mk.injEq] at h
        rw [← h.1]
        exact ih (patchLayer_inv hI hpl) hls

theorem patchLoras_inv {cached : List (Key × Tensor)} {pfx : String} {m0 : Model} :
    ∀ {loras : List (LoraModel × ℚ)} {st st₂ : PatchState} {outs : List (LoraModel × ℚ)},
      Inv m0 cached st → patchLoras cached pfx st loras = .ok (st₂, outs) →
      Inv m0 cached st₂ := by
  intro loras
  induction loras with
  | nil =>
    intro st st₂ outs hI h
    simp only [patchLoras] at h
    rw [Except.ok.injEq, Prod.mk.injEq] at h
    rw [← h.1]
    exact hI
  | cons x rest ih =>
    intro st st₂ outs hI h
    obtain ⟨lm, lw⟩ := x
    cases hpl : patchLayers cached pfx lw st lm.layers with
    | error e => simp [patchLoras, hpl] at h
    | ok pr =>
      obtain ⟨st₁, ls₁⟩ := pr
      cases hls : patchLoras cached pfx st₁ rest with
      | error e => simp [patchLoras, hpl, hls] at h
      | ok pr₂ =>
        obtain ⟨st₂', outs'⟩ := pr₂
        simp only [patchLoras, hpl, hls] at h
        rw [Except.ok.injEq, Prod.mk.injEq] at h
        rw [← h.1]
        exact ih (patchLayers_inv hI hpl) hls

/-- A successful `_patch_model` run establishes the session invariant with
respect to the initial model and the (defaulted) external cache. -/
theorem patch_model_inv {model : Model} {pfx : String} {loras : List (LoraModel × ℚ)}
    {cachedOpt : Option (List (Key × Tensor))} {st : PatchState} {outs : List (LoraModel × ℚ)}
    (h : patch_model model pfx loras cachedOpt = .ok (st, outs)) :
    Inv model (cachedOpt.getD []) st :=
  patchLoras_inv (Inv.init model (cachedOpt.getD [])) h

/-! ### Restore lemmas (the `finally` block) -/

theorem restoreOne_self (m : Model) (k : Key) (src : Tensor) :
    (restoreOne m k src).getParam k =
      (m.getParam k).map (fun p => { p with vals := src.vals }) := by
  unfold restoreOne
  cases h : m.getParam k with
  | none =>
    rw [h]
    rfl
  | some p =>
    rw [Model.getParam_setParam_self _ h]
    rfl

theorem restoreOne_ne (m : Model) (k : Key) (src : Tensor) {k' : Key} (h : k' ≠ k) :
    (restoreOne m k src).getParam k' = m.getParam k' := by
  unfold restoreOne
  cases hm : m.getParam k with
  | none => rfl
  | some p => exact Model.getParam_setParam_ne _ h

theorem restoreCachedFold_notMem (cached : List (Key × Tensor)) :
    ∀ (mc : List Key) (m : Model) {k : Key}, k ∉ mc →
      (mc.foldl (restoreCachedStep cached) m).getParam k = m.getParam k := by
  intro mc
  induction mc with
  | nil => intro m k _; rfl
  | cons k0 rest ih =>
    intro m k hk
    rw [List.foldl_cons]
    have hk0 : k ≠ k0 := fun hh => hk (hh ▸ List.mem_cons_self k0 rest)
    have hrest : k ∉ rest := fun hh => hk (List.mem_cons_of_mem _ hh)
    rw [ih _ hrest]
    unfold restoreCachedStep
    cases lookupA cached k0 with
    | none => rfl
    | some src => exact restoreOne_ne m k0 src hk0

theorem restoreCachedFold_mem (cached : List (Key × Tensor)) :
    ∀ (mc : List Key) (m : Model) {k : Key} {t : Tensor}, mc.Nodup → k ∈ mc →
      lookupA cached k = some t →
      (mc.foldl (restoreCachedStep cached) m).getParam k =
        (m.getParam k).map (fun p => { p with vals := t.vals }) := by
  intro mc
  induction mc with
  | nil => intro m k t _ hk; simp at hk
  | cons k0 rest ih =>
    intro m k t hnd hk ht
    rw [List.foldl_cons]
    rcases List.mem_cons.mp hk with rfl | hkr
    · have hk0rest : k ∉ rest := (List.nodup_cons.mp hnd).1
      rw [restoreCachedFold_notMem cached rest _ hk0rest]
      unfold restoreCachedStep
      rw [ht]
      exact restoreOne_self m k t
    · have hne : k ≠ k0 := fun hh => (List.nodup_cons.mp hnd).1 (hh ▸ hkr)
      have hbase : (restoreCachedStep cached m k0).getParam k = m.getParam k := by
        unfold restoreCachedStep
        cases lookupA cached k0 with
        | none => rfl
        | some src => exact restoreOne_ne m k0 src hne
      rw [ih _ (List.nodup_cons.mp hnd).2 hkr ht, hbase]

theorem restoreSavedFold_none :
    ∀ (mw : List (Key × Tensor)) (m : Model) {k : Key}, lookupA mw k = none →
      (mw.foldl restoreSavedStep m).getParam k = m.getParam k := by
  intro mw
  induction mw with
  | nil => intro m k _; rfl
  | cons kv rest ih =>
    intro m k hk
    have hcond : ¬(kv.1 = k) := by
      intro hh
      simp only [lookupA, if_pos hh] at hk
      exact absurd hk (by simp)
    have hrest : lookupA rest k = none := by
      simpa only [lookupA, if_neg hcond] using hk
    rw [List.foldl_cons, ih _ hrest]
    exact restoreOne_ne m kv.1 kv.2 (fun hh => hcond hh.symm)

theorem restoreSavedFold_some :
    ∀ (mw : List (Key × Tensor)) (m : Model) {k : Key} {t : Tensor},
      (mw.map (fun x => x.1)).Nodup → lookupA mw k = some t →
      (mw.foldl restoreSavedStep m).getParam k =
        (m.getParam k).map (fun p => { p with vals := t.vals }) := by
  intro mw
  induction mw with
  | nil => intro m k t _ hk; simp [lookupA] at hk
  | cons kv rest ih =>
    intro m k t hnd hk
    rw [List.foldl_cons]
    by_cases hh : kv.1 = k
    · simp only [lookupA, if_pos hh] at hk
      injection hk with hkt
      have hknotin : lookupA rest k = none := by
        rw [lookupA_none_iff]
        rw [List.map_cons, List.nodup_cons] at hnd
        rw [← hh]
        exact hnd.1
      rw [restoreSavedFold_none rest _ hknotin]
      unfold restoreSavedStep
      rw [← hkt, ← hh]
      exact restoreOne_self m kv.1 kv.2
    · simp only [lookupA, if_neg hh] at hk
      rw [List.map_cons, List.nodup_cons] at hnd
      rw [ih _ hnd.2 hk]
      unfold restoreSavedStep
      rw [restoreOne_ne m kv.1 kv.2 (fun hc => hh hc.symm)]

theorem restoreOne_meta (m : Model) (k : Key) (src : Tensor) (k' : Key) :
    ((restoreOne m k src).getParam k').map tmeta = (m.getParam k').map tmeta := by
  by_cases hk : k' = k
  · subst hk
    rw [restoreOne_self]
    cases m.getParam k' <;> rfl
  · rw [restoreOne_ne m k src hk]

theorem restoreCachedFold_meta (cached : List (Key × Tensor)) :
    ∀ (mc : List Key) (m : Model) (k : Key),
      ((mc.foldl (restoreCachedStep cached) m).getParam k).map tmeta =
        (m.getParam k).map tmeta := by
  intro mc
  induction mc with
  | nil => intro m k; rfl
  | cons k0 rest ih =>
    intro m k
    rw [List.foldl_cons, ih]
    unfold restoreCachedStep
    cases lookupA cached k0 with
    | none => rfl
    | some src => exact restoreOne_meta m k0 src k

theorem restoreSavedFold_meta :
    ∀ (mw : List (Key × Tensor)) (m : Model) (k : Key),
      ((mw.foldl restoreSavedStep m).getParam k).map tmeta = (m.getParam k).map tmeta := by
  intro mw
  induction mw with
  | nil => intro m k; rfl
  | cons kv rest ih =>
    intro m k
    rw [List.foldl_cons, ih]
    exact restoreOne_meta m kv.1 kv.2 k

theorem restoreModel_meta (m : Model) (mc : List Key) (mw : List (Key × Tensor))
    (cached : List (Key × Tensor)) (k : Key) :
    ((restoreModel m mc mw cached).getParam k).map tmeta = (m.getParam k).map tmeta := by
  unfold restoreModel
  rw [restoreSavedFold_meta, restoreCachedFold_meta]

theorem restoreModel_cached {m : Model} {mc : List Key} {mw : List (Key × Tensor)}
    {cached : List (Key × Tensor)} {k : Key} {t : Tensor}
    (hnd : mc.Nodup) (hdisj : lookupA mw k = none) (hk : k ∈ mc)
    (ht : lookupA cached k = some t) :
    (restoreModel m mc mw cached).getParam k =
      (m.getParam k).map (fun p => { p with vals := t.vals }) := by
  unfold restoreModel
  rw [restoreSavedFold_none mw _ hdisj]
  exact restoreCachedFold_mem cached mc m hnd hk ht

theorem restoreModel_saved {m : Model} {mc : List Key} {mw : List (Key × Tensor)}
    {cached : List (Key × Tensor)} {k : Key} {t : Tensor}
    (hnd : (mw.map (fun x => x.1)).Nodup) (hmc : k ∉ mc) (hk : lookupA mw k = some t) :
    (restoreModel m mc mw cached).getParam k =
      (m.getParam k).map (fun p => { p with vals := t.vals }) := by
  unfold restoreModel
  rw [restoreSavedFold_some mw _ hnd hk]
  rw [restoreCachedFold_notMem cached mc m hmc]

theorem restoreModel_frame {m : Model} {mc : List Key} {mw : List (Key × Tensor)}
    {cached : List (Key × Tensor)} {k : Key}
    (hmc : k ∉ mc) (hmw : lookupA mw k = none) :
    (restoreModel m mc mw cached).getParam k = m.getParam k := by
  unfold restoreModel
  rw [restoreSavedFold_none mw _ hmw, restoreCachedFold_notMem cached mc m hmc]

/-! ### What the patcher does to the layer objects it is given -/

theorem patchParams_out {cached : List (Key × Tensor)} {lw ls : ℚ} {dt : Dtype} {modPath : Key} :
    ∀ {ps : List (String × Tensor)} {st st₂ : PatchState} {outs : List (String × Tensor)},
      patchParams cached lw ls dt modPath st ps = .ok (st₂, outs) →
      outs = ps.map (fun x => (x.1, { x.2 with vals := scaleVals (lw * ls) x.2.vals })) := by
  intro ps
  induction ps with
  | nil =>
    intro st st₂ outs h
    simp only [patchParams] at h
    rw [Except.ok.injEq, Prod.mk.injEq] at h
    rw [← h.2]
    rfl
  | cons x rest ih =>
    intro st st₂ outs h
    obtain ⟨pn, w⟩ := x
    cases hpp : patchParam cached lw ls dt modPath st pn w with
    | error e => simp [patchParams, hpp] at h
    | ok pr =>
      obtain ⟨st₁, w₁⟩ := pr
      cases hps : patchParams cached lw ls dt modPath st₁ rest with
      | error e => simp [patchParams, hpp, hps] at h
      | ok pr₂ =>
        obtain ⟨st₂', outs'⟩ := pr₂
        simp only [patchParams, hpp, hps] at h
        rw [Except.ok.injEq, Prod.mk.injEq] at h
        obtain ⟨mp, _, _, hw₁, _, _, _⟩ := patchParam_ok hpp
        rw [← h.2, List.map_cons, ← ih hps, hw₁]

/-- C8 (amended): the patcher leaves a processed layer unmodified except for
device/dtype staging AND the in-place scaling of the delta tensors the layer
provided through `get_parameters`.  Keys off the prefix leave the layer
untouched; keys on the prefix leave alpha, rank, parameter names and shapes
intact but stage every provided tensor to dtype float32 and back to the CPU
device, and scale its values in place by `lora_weight * layer_scale` (the
`*=` of line 141).  The counterexample `patcher_mutates_layer_delta` shows
the original claim — that no provided tensor's values change — is false. -/
theorem patchLayer_layer_effect {cached : List (Key × Tensor)} {pfx : String} {lw : ℚ}
    {st : PatchState} {lkey : String} {layer : LoraLayer} {st' : PatchState} {ly' : LoraLayer}
    (h : patchLayer cached pfx lw st lkey layer = .ok (st', ly')) :
    (strHasPfx lkey pfx = false → ly' = layer) ∧
      (strHasPfx lkey pfx = true →
        ly' = { layer with params := layer.params.map (fun x =>
          (x.1, Tensor.mk x.2.shape Dtype.float32 Device.cpu
            (scaleVals (lw * layerScale layer) x.2.vals))) }) := by
  by_cases hpfx : strHasPfx lkey pfx
  · cases hres : resolve_lora_key st.model.tree lkey pfx with
    | error e => simp [patchLayer, hpfx, hres] at h
    | ok r =>
      obtain ⟨mkey, modPath, module⟩ := r
      cases hwp : st.model.getParam (modPath ++ ["weight"]) with
      | none => simp [patchLayer, hpfx, hres, hwp] at h
      | some wparam =>
        cases hps : patchParams cached lw (layerScale layer) wparam.dtype modPath st
            (stageLayerParams wparam.device layer.params) with
        | error e => simp [patchLayer, hpfx, hres, hwp, hps] at h
        | ok pr =>
          obtain ⟨st₂', outs'⟩ := pr
          simp only [patchLayer] at h
          rw [if_neg (by simp [hpfx])] at h
          simp only [hres, hwp, hps] at h
          rw [Except.ok.injEq, Prod.mk.injEq] at h
          constructor
          · intro hfalse
            rw [hpfx] at hfalse
            exact absurd hfalse (by simp)
          · intro _
            rw [← h.2, patchParams_out hps]
            simp only [unstageLayerParams, stageLayerParams, List.map_map]
            rfl
  · have hfalse : strHasPfx lkey pfx = false := by
      cases hcase : strHasPfx lkey pfx
      · rfl
      · exact absurd hcase hpfx
    simp only [patchLayer, if_pos hpfx] at h
    rw [Except.ok.injEq, Prod.mk.injEq] at h
    constructor
    · intro _
      rw [← h.2]
    · intro htrue
      rw [hfalse] at htrue
      exact absurd htrue (by simp)

theorem strAppendEmpty (s : String) : s ++ "" = s := by
  cases s with
  | mk d =>
    show String.mk (d ++ []) = String.mk d
    rw [List.append_nil]

theorem strAppendAssoc (a b c : String) : a ++ b ++ c = a ++ (b ++ c) := by
  cases a with
  | mk da =>
    cases b with
    | mk db =>
      cases c with
      | mk dc =>
        show String.mk (da ++ db ++ dc) = String.mk (da ++ (db ++ dc))
        rw [List.append_assoc]

theorem lstripDots_dot (s : String) : lstripDots ("." ++ s) = lstripDots s := by
  cases s with
  | mk d =>
    show String.mk (List.dropWhile _ ('.' :: d)) = String.mk (List.dropWhile _ d)
    rw [List.dropWhile_cons_of_pos]
    decide

theorem dotTail_append (l₁ l₂ : List String) :
    dotTail (l₁ ++ l₂) = dotTail l₁ ++ dotTail l₂ := by
  induction l₁ with
  | nil =>
    show dotTail l₂ = "" ++ dotTail l₂
    cases dotTail l₂ with
    | mk d => rfl
  | cons a rest ih =>
    show "." ++ a ++ dotTail (rest ++ l₂) = "." ++ a ++ dotTail rest ++ dotTail l₂
    rw [ih]
    simp only [strAppendAssoc]

theorem dotTail_singleton (a : String) : dotTail [a] = "." ++ a := by
  show "." ++ a ++ "" = "." ++ a
  rw [strAppendEmpty]

theorem dotJoin_cons (a : String) (l : List String) : dotJoin (a :: l) = a ++ dotTail l := by
  cases l with
  | nil =>
    show a = a ++ ""
    rw [strAppendEmpty]
  | cons b rest =>
    show a ++ "." ++ dotJoin (b :: rest) = a ++ ("." ++ b ++ dotTail rest)
    rw [dotJoin_cons b rest, strAppendAssoc]
    rw [← strAppendAssoc "." b (dotTail rest)]

theorem lstripDots_dotTail (l : List String) :
    lstripDots (dotTail l) = lstripDots (dotJoin l) := by
  cases l with
  | nil => rfl
  | cons a rest =>
    show lstripDots ("." ++ a ++ dotTail rest) = lstripDots (dotJoin (a :: rest))
    rw [strAppendAssoc, lstripDots_dot, dotJoin_cons]

theorem dotTail_snoc (path : List String) (name : String) :
    dotTail path ++ "." ++ name = dotTail (path ++ [name]) := by
  rw [dotTail_append, dotTail_singleton, strAppendAssoc]

/-- The source's greedy loop agrees with the spec's greedy loop: starting from
an accumulated `module_key` string that matches the accumulated path, it
returns the same resolved module, the same path, and the dot-joined
leading-dot-stripped canonical key the spec prescribes. -/
theorem resolveLoop_spec :
    ∀ (toks : List String) (m : ModTree) (path : Key) (name : String) (mkey : String),
      mkey = dotTail path →
      resolveLoop m mkey path name toks =
        (specResolveLoop m path name toks).map
          (fun r => (lstripDots (dotJoin r.1), r.1, r.2)) := by
  intro toks
  induction toks with
  | nil =>
    intro m path name mkey hmk
    subst hmk
    unfold resolveLoop specResolveLoop
    cases m.getSub name with
    | none => rfl
    | some s =>
      show some (lstripDots (dotTail path ++ "." ++ name), path ++ [name], s) = _
      rw [dotTail_snoc, lstripDots_dotTail]
      rfl
  | cons t ts ih =>
    intro m path name mkey hmk
    subst hmk
    unfold resolveLoop specResolveLoop
    cases m.getSub name with
    | none => exact ih m path (name ++ "_" ++ t) (dotTail path) rfl
    | some s =>
      exact ih s (path ++ [name]) t (dotTail path ++ "." ++ name) (dotTail_snoc path name)

theorem tensor_eq_of_meta_vals {a b : Tensor} (hm : tmeta a = tmeta b)
    (hv : a.vals = b.vals) : a = b := by
  cases a with
  | mk s d dev v =>
    cases b with
    | mk s' d' dev' v' =>
      simp only [tmeta, Prod.mk.injEq] at hm
      obtain ⟨hs, hd, hdev⟩ := hm
      subst hs
      subst hd
      subst hdev
      exact congrArg (Tensor.mk s d dev) hv

/-! ### The claims -/

/-- C1 (amended): for every model, prefix, LoRA spec and optional external
`cached_weights` map whose entries agree with the model's pre-patch parameter
values, a successful patch through the scoped form followed by the scope exit
— on any exit path, normal or raised — leaves every parameter that was
touched during patching equal (tensor-identical) to its pre-patch value.  The
agreement hypothesis is forced by the counterexample
`static_patch_model_cached_mismatch`: restoration reads touched cached keys
back from the caller-supplied map, so a map that disagrees with the live model
restores the cached value instead of the pre-patch one. -/
theorem static_patch_model_restores_touched {ε : Type} {model : Model} {pfx : String}
    {loras : List (LoraModel × ℚ)} {cachedOpt : Option (List (Key × Tensor))}
    {st : PatchState} {outs : List (LoraModel × ℚ)}
    (hpatch : patch_model model pfx loras cachedOpt = .ok (st, outs))
    (hagree : ∀ k t, lookupA (cachedOpt.getD []) k = some t →
      ∀ p, model.getParam k = some p → t.vals = p.vals)
    (ex : ExitPath ε) :
    ∃ m', static_patch_model model pfx loras cachedOpt ex = .ok (m', ex) ∧
      ∀ k, (k ∈ st.modifiedCached ∨ (lookupA st.modifiedWeights k).isSome) →
        m'.getParam k = model.getParam k := by
  have hI : Inv model (cachedOpt.getD []) st := patch_model_inv hpatch
  refine ⟨restoreModel st.model st.modifiedCached st.modifiedWeights (cachedOpt.getD []),
    ?_, ?_⟩
  · unfold static_patch_model
    rw [hpatch]
  · intro k hk
    obtain ⟨p0, hp0⟩ := Option.isSome_iff_exists.mp (hI.touched_present k hk)
    obtain ⟨p1, hp1, hmeta⟩ := meta_pres_some (hI.meta_pres k) hp0
    rcases hk with hkc | hkw
    · obtain ⟨t, ht⟩ := Option.isSome_iff_exists.mp (hI.cached_mem k hkc)
      rw [restoreModel_cached hI.mc_nodup (hI.disj k hkc) hkc ht, hp1, hp0]
      show some { p1 with vals := t.vals } = some p0
      exact congrArg some (tensor_eq_of_meta_vals hmeta (hagree k t ht p0 hp0))
    · obtain ⟨t, ht⟩ := Option.isSome_iff_exists.mp hkw
      obtain ⟨p, hp, hteq⟩ := hI.saved_orig k t ht
      have hpp0 : p = p0 := by
        rw [hp] at hp0
        injection hp0
      have hnotmc : k ∉ st.modifiedCached := by
        intro hc
        rw [hI.disj k hc] at ht
        exact absurd ht (by simp)
      rw [restoreModel_saved hI.mw_nodup hnotmc ht, hp1, hp0]
      show some { p1 with vals := t.vals } = some p0
      refine congrArg some (tensor_eq_of_meta_vals hmeta ?_)
      show t.vals = p0.vals
      rw [hteq, hpp0]

/-- C1 counterexample: with the externally supplied cache claiming the
original value of `foo.weight` is [99] while the live pre-patch value is [0],
the scoped patch/restore round trip ends with the parameter at [99], not its
pre-patch value — the claim as stated (quantifying over every cached_weights
map) is false on the code. -/
theorem static_patch_model_cached_mismatch :
    (match static_patch_model cxModel "lora_unet_" [(cxLora, 1)] (some cxCache)
        (ExitPath.normal : ExitPath Unit) with
      | .ok (m, _) => (m.getParam ["foo", "weight"]).map Tensor.vals
      | .error _ => none) = some [99] ∧
    (cxModel.getParam ["foo", "weight"]).map Tensor.vals = some [0] ∧
    ¬([99] : List ℚ) = [0] := by
  refine ⟨by with_unfolding_all rfl, by with_unfolding_all rfl, ?_⟩
  intro hcontra
  injection hcontra with h1 _
  norm_num at h1

/-- C1 witness: the spec §8 scenario patched at weight 1/2 with no cache,
exiting the scope through a raised exception, restores the touched parameter
to its pre-patch tensor. -/
theorem static_patch_model_restores_touched_witness :
    ∃ m', static_patch_model scModel "lora_unet_" [(scLora, 1/2)] none
        (ExitPath.raised ()) = .ok (m', ExitPath.raised ()) ∧
      ∀ k, (k ∈ c1St.modifiedCached ∨ (lookupA c1St.modifiedWeights k).isSome) →
        m'.getParam k = scModel.getParam k :=
  static_patch_model_restores_touched (by with_unfolding_all rfl)
    (by intro k t h; simp [lookupA] at h) (ExitPath.raised ())

/-- C2: a successful patch applies the LoRAs strictly in the given order, each
delta composed in place on top of all previously applied ones: every parameter
ends at its original tensor with values equal to the ordered fold of
`weight_i * layer_scale_i * delta_i` contributions added onto its original
values (`lorasContrib` lists those scaled deltas in application order). -/
theorem patch_model_additive {model : Model} {pfx : String} {loras : List (LoraModel × ℚ)}
    {cachedOpt : Option (List (Key × Tensor))} {st : PatchState} {outs : List (LoraModel × ℚ)}
    (hpatch : patch_model model pfx loras cachedOpt = .ok (st, outs)) :
    ∀ k p0, model.getParam k = some p0 →
      st.model.getParam k =
        some { p0 with
          vals := (lorasContrib model.tree pfx loras k).foldl addVals p0.vals } := by
  intro k p0 hp0
  have hval := patchLoras_val
    (show patchLoras (cachedOpt.getD []) pfx ⟨model, [], []⟩ loras = .ok (st, outs)
      from hpatch) k
  rw [hval]
  show (model.getParam k).map _ = _
  rw [hp0]
  rfl

/-- C2 witness: applying the spec §8 LoRA twice (weights 1/2 then 1) to the
all-zero [2]-parameter gives exactly the replayed ordered sum, which evaluates
to [3/2, 3/2]. -/
theorem patch_model_additive_witness :
    c2St.model.getParam ["foo", "bar_baz", "weight"] =
      some { T0 with vals := (lorasContrib scModel.tree "lora_unet_" c2Loras
        ["foo", "bar_baz", "weight"]).foldl addVals T0.vals } ∧
    (lorasContrib scModel.tree "lora_unet_" c2Loras ["foo", "bar_baz", "weight"]).foldl
        addVals T0.vals = [3/2, 3/2] :=
  ⟨patch_model_additive (show patch_model scModel "lora_unet_" c2Loras none =
      .ok (c2St, c2Outs) by with_unfolding_all rfl) ["foo", "bar_baz", "weight"] T0
      (by with_unfolding_all rfl),
   by with_unfolding_all rfl⟩

/-- C3 (amended): in every successful session the original value of a
parameter key is saved into `modified_weights` at most once — on the first
touch, so the saved tensor holds the key's pre-session (pre-first-touch)
values — and restoration reverts every key saved there to exactly its
pre-first-touch tensor; keys found in the external `cached_weights` are never
saved and are instead reverted to the cached entry (which equals the
pre-first-touch value only when the supplied cache agrees with the model, as
the counterexample `restore_cached_not_first_touch` forces us to add). -/
theorem patch_model_first_touch {model : Model} {pfx : String} {loras : List (LoraModel × ℚ)}
    {cachedOpt : Option (List (Key × Tensor))} {st : PatchState} {outs : List (LoraModel × ℚ)}
    (hpatch : patch_model model pfx loras cachedOpt = .ok (st, outs)) :
    (st.modifiedWeights.map (fun x => x.1)).Nodup ∧
    (∀ k t, lookupA st.modifiedWeights k = some t →
      ∃ p, model.getParam k = some p ∧ t.vals = p.vals ∧
        (restoreModel st.model st.modifiedCached st.modifiedWeights
          (cachedOpt.getD [])).getParam k = some p) ∧
    (∀ k, k ∈ st.modifiedCached → ∀ t, lookupA (cachedOpt.getD []) k = some t →
      ∃ p', (restoreModel st.model st.modifiedCached st.modifiedWeights
        (cachedOpt.getD [])).getParam k = some p' ∧ p'.vals = t.vals) := by
  have hI : Inv model (cachedOpt.getD []) st := patch_model_inv hpatch
  refine ⟨hI.mw_nodup, ?_, ?_⟩
  · intro k t ht
    obtain ⟨p, hp, hteq⟩ := hI.saved_orig k t ht
    obtain ⟨p1, hp1, hmeta⟩ := meta_pres_some (hI.meta_pres k) hp
    have hnotmc : k ∉ st.modifiedCached := by
      intro hc
      rw [hI.disj k hc] at ht
      exact absurd ht (by simp)
    refine ⟨p, hp, by rw [hteq], ?_⟩
    rw [restoreModel_saved hI.mw_nodup hnotmc ht, hp1]
    show some { p1 with vals := t.vals } = some p
    refine congrArg some (tensor_eq_of_meta_vals hmeta ?_)
    show t.vals = p.vals
    rw [hteq]
  · intro k hkc t ht
    obtain ⟨p0, hp0⟩ := Option.isSome_iff_exists.mp (hI.touched_present k (Or.inl hkc))
    obtain ⟨p1, hp1, _⟩ := meta_pres_some (hI.meta_pres k) hp0
    rw [restoreModel_cached hI.mc_nodup (hI.disj k hkc) hkc ht, hp1]
    exact ⟨{ p1 with vals := t.vals }, rfl, rfl⟩

/-- C3 counterexample: `foo.weight` (pre-first-touch value [0]) is touched by
two LoRA layers in one session while the supplied cache claims [99]; nothing
is ever saved for it, and restoration writes the cached [99] back — not the
value before the first touch. -/
theorem restore_cached_not_first_touch :
    (match static_patch_model cxModel "lora_unet_" [(cxLora, 1), (cxLora, 1)] (some cxCache)
        (ExitPath.normal : ExitPath Unit) with
      | .ok (m, _) => (m.getParam ["foo", "weight"]).map Tensor.vals
      | .error _ => none) = some [99] ∧
    (cxModel.getParam ["foo", "weight"]).map Tensor.vals = some [0] ∧
    ¬([99] : List ℚ) = [0] := by
  refine ⟨by with_unfolding_all rfl, by with_unfolding_all rfl, ?_⟩
  intro hcontra
  injection hcontra with h1 _
  norm_num at h1

/-- C3 witness: in the two-LoRA run of the spec §8 scenario the touched key is
saved exactly once, its saved values are the pre-session [0, 0], and the
restore reverts the parameter to its pre-first-touch tensor. -/
theorem patch_model_first_touch_witness :
    (c2St.modifiedWeights.map (fun x => x.1)).Nodup ∧
    (∃ p, scModel.getParam ["foo", "bar_baz", "weight"] = some p ∧
      (Tensor.mk [2] Dtype.float16 Device.cpu [0, 0]).vals = p.vals ∧
      (restoreModel c2St.model c2St.modifiedCached c2St.modifiedWeights []).getParam
        ["foo", "bar_baz", "weight"] = some p) :=
  have h := patch_model_first_touch (show patch_model scModel "lora_unet_" c2Loras none =
    .ok (c2St, c2Outs) by with_unfolding_all rfl)
  ⟨h.1, h.2.1 ["foo", "bar_baz", "weight"] (Tensor.mk [2] Dtype.float16 Device.cpu [0, 0])
    (by with_unfolding_all rfl)⟩

/-- C4: in every successful session, a touched key that the externally
supplied read-only `cached_weights` holds is recorded in
`modified_cached_weights`, its current value is never copied into
`modified_weights`, and restoration copies the value from `cached_weights`
back into the model at that key. -/
theorem patch_model_cache_precedence {model : Model} {pfx : String}
    {loras : List (LoraModel × ℚ)} {cachedOpt : Option (List (Key × Tensor))}
    {st : PatchState} {outs : List (LoraModel × ℚ)}
    (hpatch : patch_model model pfx loras cachedOpt = .ok (st, outs)) :
    ∀ k t, lookupA (cachedOpt.getD []) k = some t →
      (k ∈ st.modifiedCached ∨ (lookupA st.modifiedWeights k).isSome) →
      k ∈ st.modifiedCached ∧ lookupA st.modifiedWeights k = none ∧
      ∃ p', (restoreModel st.model st.modifiedCached st.modifiedWeights
        (cachedOpt.getD [])).getParam k = some p' ∧ p'.vals = t.vals := by
  intro k t ht htouch
  have hI : Inv model (cachedOpt.getD []) st := patch_model_inv hpatch
  have hkc : k ∈ st.modifiedCached := by
    rcases htouch with h | h
    · exact h
    · have hnone := hI.saved_not_cached k h
      rw [ht] at hnone
      exact absurd hnone (by simp)
  refine ⟨hkc, hI.disj k hkc, ?_⟩
  obtain ⟨p0, hp0⟩ := Option.isSome_iff_exists.mp (hI.touched_present k (Or.inl hkc))
  obtain ⟨p1, hp1, _⟩ := meta_pres_some (hI.meta_pres k) hp0
  rw [restoreModel_cached hI.mc_nodup (hI.disj k hkc) hkc ht, hp1]
  exact ⟨{ p1 with vals := t.vals }, rfl, rfl⟩

/-- C4 witness: with the external cache holding [7, 7] for the touched key,
the session records the key in `modified_cached_weights`, stores nothing in
`modified_weights`, and the restore writes the cached [7, 7] back. -/
theorem patch_model_cache_precedence_witness :
    ["foo", "bar_baz", "weight"] ∈ c4St.modifiedCached ∧
    lookupA c4St.modifiedWeights ["foo", "bar_baz", "weight"] = none ∧
    ∃ p', (restoreModel c4St.model c4St.modifiedCached c4St.modifiedWeights
      c4Cache).getParam ["foo", "bar_baz", "weight"] = some p' ∧
      p'.vals = (Tensor.mk [2] Dtype.float16 Device.cpu [7, 7]).vals := by
  have hmc : c4St.modifiedCached = [["foo", "bar_baz", "weight"]] := by
    with_unfolding_all rfl
  exact patch_model_cache_precedence (show patch_model scModel "lora_unet_" [(scLora, 1)]
      (some c4Cache) = .ok (c4St, c4Outs) by with_unfolding_all rfl)
    ["foo", "bar_baz", "weight"] (Tensor.mk [2] Dtype.float16 Device.cpu [7, 7])
    (by with_unfolding_all rfl)
    (Or.inl (by rw [hmc]; exact List.mem_singleton_self _))

/-- C5: for every flat key with no dot that starts with the prefix, the
source's `_resolve_lora_key` computes exactly the spec's greedy
leftmost-shortest-match resolution (`specResolve`, modelled from the spec's
words): strip the prefix, split on underscores, greedily descend — a
successful resolution opens a new accumulated token, a failed one extends the
current token with an underscore — run the mandatory final descent after the
loop, and return the dot-joined path with the leading dot stripped. -/
theorem resolve_lora_key_spec {tree : ModTree} {key pfx : String}
    (hdot : strContainsDot key = false) (hpfx : strHasPfx key pfx = true) :
    resolve_lora_key tree key pfx =
      match specResolve tree key pfx with
      | some r => .ok r
      | none => .error .unresolvedKey := by
  unfold resolve_lora_key specResolve
  rw [if_neg (by simp [hdot]), if_neg (by simp [hpfx]), if_pos hpfx]
  cases hsplit : splitUnderscores (strDropPfxLen key pfx) with
  | nil => rfl
  | cons t ts =>
    show (match resolveLoop tree "" [] t ts with
        | some r => (Except.ok r : Except PatchError (String × Key × ModTree))
        | none => Except.error PatchError.unresolvedKey) =
      (match (specResolveLoop tree [] t ts).map
          (fun r => (lstripDots (dotJoin r.1), r.1, r.2)) with
        | some r => (Except.ok r : Except PatchError (String × Key × ModTree))
        | none => Except.error PatchError.unresolvedKey)
    rw [resolveLoop_spec ts tree [] t "" rfl]
    cases specResolveLoop tree [] t ts with
    | none => rfl
    | some r => rfl

/-- C5 witness: resolving `lora_unet_foo_bar_baz` with prefix `lora_unet_`
against the spec §8 tree matches the spec resolver, and the canonical key is
`foo.bar_baz` at path [foo, bar_baz] (the underscore in `bar_baz` could not
be resolved as a descent and was reattached greedily). -/
theorem resolve_lora_key_spec_witness :
    resolve_lora_key scTree "lora_unet_foo_bar_baz" "lora_unet_" =
      (match specResolve scTree "lora_unet_foo_bar_baz" "lora_unet_" with
        | some r => .ok r
        | none => .error .unresolvedKey) ∧
    (resolve_lora_key scTree "lora_unet_foo_bar_baz" "lora_unet_").toOption.map
      (fun r => (r.1, r.2.1)) = some ("foo.bar_baz", ["foo", "bar_baz"]) :=
  ⟨resolve_lora_key_spec (by rfl) (by rfl), by rfl⟩

/-- C6: the scale applied to a layer's deltas is `alpha / rank` exactly when
both alpha and rank are present and non-zero, and 1 in every other case —
alpha absent, rank absent, alpha zero, or rank zero (the Python truthiness
test of line 114). -/
theorem layerScale_spec (l : LoraLayer) :
    (∀ a r, l.alpha = some a → l.rank = some r → ¬a = 0 → ¬r = 0 →
      layerScale l = a / r) ∧
    (l.alpha = none ∨ l.rank = none ∨ l.alpha = some 0 ∨ l.rank = some 0 →
      layerScale l = 1) := by
  constructor
  · intro a r ha hr ha0 hr0
    have hc : (truthy l.alpha && truthy l.rank) = true := by
      rw [ha, hr]
      simp [truthy, ha0, hr0]
    unfold layerScale
    rw [if_pos hc, ha, hr]
    rfl
  · intro hcase
    unfold layerScale
    rcases hcase with h | h | h | h
    · rw [if_neg (by rw [h]; simp [truthy])]
    · rw [if_neg (by rw [h]; simp [truthy])]
    · rw [if_neg (by rw [h]; simp [truthy])]
    · rw [if_neg (by rw [h]; simp [truthy])]

/-- C6 witness: alpha 3 with rank 6 scales by 3/6; an absent alpha scales by
1; a zero alpha also scales by 1. -/
theorem layerScale_spec_witness :
    layerScale (LoraLayer.mk (some 3) (some 6) []) = 3 / 6 ∧
    layerScale (LoraLayer.mk none (some 5) []) = 1 ∧
    layerScale (LoraLayer.mk (some 0) (some 5) []) = 1 :=
  ⟨(layerScale_spec (LoraLayer.mk (some 3) (some 6) [])).1 3 6 rfl rfl
      (by norm_num) (by norm_num),
   (layerScale_spec (LoraLayer.mk none (some 5) [])).2 (Or.inl rfl),
   (layerScale_spec (LoraLayer.mk (some 0) (some 5) [])).2 (Or.inr (Or.inr (Or.inl rfl)))⟩

/-- C7: when a contributed delta's shape differs from the target parameter's
shape, the per-parameter step silently reshapes and proceeds exactly when the
element counts (shape products) agree — bookkeeping the first touch and
adding the scaled delta onto the live parameter — and fails with `shapeError`
without writing that delta when the counts differ. -/
theorem patchParam_reshape {cached : List (Key × Tensor)} {lw ls : ℚ} {dt : Dtype}
    {modPath : Key} {st : PatchState} {pname : String} {w : Tensor} {mp : Tensor}
    (hmp : st.model.getParam (modPath ++ [pname]) = some mp)
    (hsh : ¬mp.shape = w.shape) :
    (w.shape.prod = mp.shape.prod →
      patchParam cached lw ls dt modPath st pname w =
        .ok ({ bookKeep cached st (modPath ++ [pname]) mp with
               model := (bookKeep cached st (modPath ++ [pname]) mp).model.setParam
                 (modPath ++ [pname])
                 { mp with vals := addVals mp.vals (scaleVals (lw * ls) w.vals) } },
             { w with vals := scaleVals (lw * ls) w.vals })) ∧
    (¬w.shape.prod = mp.shape.prod →
      patchParam cached lw ls dt modPath st pname w = .error .shapeError) := by
  constructor
  · intro hprod
    simp only [patchParam, hmp]
    rw [if_neg (fun hc => hc.2 hprod)]
  · intro hprod
    simp only [patchParam, hmp]
    rw [if_pos ⟨hsh, hprod⟩]

/-- C7 witness: onto the [2, 4] parameter (8 elements), an 8-element delta of
shape [8] reshapes silently and is added; a 3-element delta fails with
`shapeError`. -/
theorem patchParam_reshape_witness :
    patchParam [] 1 1 Dtype.float32 ["m"] c7St "weight" c7w8 =
      .ok ({ bookKeep [] c7St ["m", "weight"] c7mp with
             model := (bookKeep [] c7St ["m", "weight"] c7mp).model.setParam ["m", "weight"]
               { c7mp with vals := addVals c7mp.vals (scaleVals (1 * 1) c7w8.vals) } },
           { c7w8 with vals := scaleVals (1 * 1) c7w8.vals }) ∧
    patchParam [] 1 1 Dtype.float32 ["m"] c7St "weight" c7w3 = .error .shapeError :=
  ⟨(patchParam_reshape (by rfl) (by decide)).1 (by decide),
   (patchParam_reshape (by rfl) (by decide)).2 (by decide)⟩

/-- C8 counterexample: patching the [1]-delta layer at weight 2 (scale 1)
leaves the delta tensor the layer provided through `get_parameters` holding
[2] — its values were changed in place by the `*=` of line 141, so the claim
that no provided tensor's values change is false on the code. -/
theorem patcher_mutates_layer_delta :
    c8OutDelta = some [2] ∧ cxLayer.params.map (fun z => z.2.vals) = [[1]] ∧
    ¬([2] : List ℚ) = [1] := by
  refine ⟨by with_unfolding_all rfl, by with_unfolding_all rfl, ?_⟩
  intro h
  injection h with h1 _
  norm_num at h1

/-- C8 witness (for the amended theorem): one `patchLayer` call on the
counterexample layer at weight 2 returns the layer with its provided delta
tensor scaled in place by 2 and staged to float32 on the CPU. -/
theorem patchLayer_layer_effect_witness :
    c8LLy = { cxLayer with params := cxLayer.params.map (fun x =>
      (x.1, Tensor.mk x.2.shape Dtype.float32 Device.cpu
        (scaleVals (2 * layerScale cxLayer) x.2.vals))) } :=
  (patchLayer_layer_effect (show patchLayer [] "lora_unet_" 2 c8St0 "lora_unet_foo" cxLayer =
    .ok (c8LSt, c8LLy) by with_unfolding_all rfl)).2 (by rfl)

/-- C9: a successful patch and the subsequent restore both preserve every
model parameter's metadata — shape, dtype, device, and presence — so only
parameter values ever change: the patch adds the scaled delta in place (cast
to the module weight's dtype, which for the `weight` parameter is the
parameter's own dtype) and the restore copies values into the existing
tensors via `copy_`. -/
theorem patch_restore_preserve_meta {model : Model} {pfx : String}
    {loras : List (LoraModel × ℚ)} {cachedOpt : Option (List (Key × Tensor))}
    {st : PatchState} {outs : List (LoraModel × ℚ)}
    (hpatch : patch_model model pfx loras cachedOpt = .ok (st, outs)) (k : Key) :
    (st.model.getParam k).map tmeta = (model.getParam k).map tmeta ∧
    ((restoreModel st.model st.modifiedCached st.modifiedWeights
      (cachedOpt.getD [])).getParam k).map tmeta = (model.getParam k).map tmeta := by
  have hI : Inv model (cachedOpt.getD []) st := patch_model_inv hpatch
  refine ⟨hI.meta_pres k, ?_⟩
  rw [restoreModel_meta]
  exact hI.meta_pres k

/-- C9 witness: after the two-LoRA run and its restore, the touched
parameter's shape [2], dtype float16 and device cuda are exactly those of the
original model. -/
theorem patch_restore_preserve_meta_witness :
    ((c2St.model.getParam ["foo", "bar_baz", "weight"]).map tmeta =
      (scModel.getParam ["foo", "bar_baz", "weight"]).map tmeta) ∧
    (((restoreModel c2St.model c2St.modifiedCached c2St.modifiedWeights []).getParam
      ["foo", "bar_baz", "weight"]).map tmeta =
      (scModel.getParam ["foo", "bar_baz", "weight"]).map tmeta) :=
  patch_restore_preserve_meta (show patch_model scModel "lora_unet_" c2Loras none =
    .ok (c2St, c2Outs) by with_unfolding_all rfl) ["foo", "bar_baz", "weight"]

/-- C10: a flat LoRA key containing a dot fails `_resolve_lora_key`'s entry
assertion before the prefix check and before any traversal, whatever the
prefix. -/
theorem resolve_lora_key_dot {tree : ModTree} {key pfx : String}
    (h : strContainsDot key = true) :
    resolve_lora_key tree key pfx = .error .dotInKey := by
  unfold resolve_lora_key
  rw [if_pos h]

/-- C10 witness: `a.b` fails with the dot error even against a prefix it does
not start with. -/
theorem resolve_lora_key_dot_witness :
    resolve_lora_key (ModTree.mk []) "a.b" "lora_unet_" = .error .dotInKey :=
  resolve_lora_key_dot (by rfl)

end LoraPatcher
